import Mathlib

/-!
Verification of the cluster scheduler core described in `spec.md` against a
shallow embedding.  The scheduler implementation module itself is not part of
the source tree (only its unit tests are), so every definition below is
modelled from the specification text, with the unit tests pinning concrete
behaviour.  All quantities the tests exercise are integral, so resource
vectors are lists of integers with the globally configured dimension count,
and utilization ratios are kept as explicit integer fractions.
-/

set_option maxRecDepth 100000
set_option maxHeartbeats 4000000

namespace TreadmillScheduler

/-- Modelled from the spec: the globally configured dimension count of
resource vectors (`DIMENSION_COUNT`); every unit test sets it to 2. -/
def DIMENSION_COUNT : ℕ := 2

/-- A resource vector: fixed-dimension vector of numbers.  All quantities
exercised by the unit tests are integral, so components are integers (the
utilization ratio below is kept as an explicit fraction). -/
abbrev Vec := List ℤ

/-- The zero resource vector. -/
def vzero : Vec := List.replicate DIMENSION_COUNT 0

/-- Componentwise sum of two resource vectors. -/
def vadd (a b : Vec) : Vec := List.zipWith (· + ·) a b

/-- Componentwise difference of two resource vectors. -/
def vsub (a b : Vec) : Vec := List.zipWith (· - ·) a b

/-- Componentwise maximum of two resource vectors. -/
def vmax (a b : Vec) : Vec := List.zipWith max a b

/-- `fits d c`: every component of demand `d` is at most the corresponding
component of capacity `c`. -/
def fits (d c : Vec) : Bool := (List.zipWith (fun x y => decide (x ≤ y)) d c).all id

/-- The L1 norm of a resource vector (sum over dimensions). -/
def l1 (v : Vec) : ℤ := v.sum

/-- Modelled from the spec: the `IdentityGroup` data model (missing module
`treadmill/scheduler.py`): a name-indexed pool with a `count` and a set
`available` of integer identities, initially `0 .. count-1`. -/
structure IdentityGroup where
  count : ℕ
  available : Finset ℕ
  deriving DecidableEq

namespace IdentityGroup

/-- Modelled from the spec: a fresh identity group of size `n` has all
identities `0 .. n-1` available. -/
def init (n : ℕ) : IdentityGroup := ⟨n, Finset.range n⟩

/-- Modelled from the spec: `acquire()` removes and returns the smallest
available id, or none when the available set is empty. -/
def acquire (g : IdentityGroup) : Option ℕ × IdentityGroup :=
  if h : g.available.Nonempty then
    (some (g.available.min' h), { g with available := g.available.erase (g.available.min' h) })
  else
    (none, g)

/-- Modelled from the spec: `release(id)` re-adds `id` if `id < count`. -/
def release (g : IdentityGroup) (i : ℕ) : IdentityGroup :=
  if i < g.count then { g with available := insert i g.available } else g

/-- Modelled from the spec: `adjust(M)` sets count to `M`; growing adds
`{N .. M-1}` to the available set, shrinking removes every id `≥ M`. -/
def adjust (g : IdentityGroup) (m : ℕ) : IdentityGroup :=
  if g.count ≤ m then
    { count := m, available := g.available ∪ Finset.Ico g.count m }
  else
    { count := m, available := g.available.filter (fun i => i < m) }

end IdentityGroup

/-- C7: for every IdentityGroup of count N, `acquire()` removes and returns
the smallest available id and returns none when the available set is empty;
`release(id)` re-adds `id` exactly when `id < N`; `adjust(M)` with `M > N`
adds `{N .. M-1}` to the available set, and with `M < N` removes every
available id `≥ M` while leaving smaller available ids intact. -/
theorem C7_identity_group (g : IdentityGroup) (i m m' : ℕ)
    (hup : g.count < m) (hdown : m' < g.count) :
    (∀ _ : g.available.Nonempty, ∃ x,
        g.acquire.1 = some x ∧ x ∈ g.available ∧ (∀ y ∈ g.available, x ≤ y) ∧
        g.acquire.2.available = g.available.erase x) ∧
    (g.available = ∅ → g.acquire.1 = none ∧ g.acquire.2 = g) ∧
    ((g.release i).available =
        if i < g.count then insert i g.available else g.available) ∧
    ((g.adjust m).available = g.available ∪ Finset.Ico g.count m) ∧
    (∀ j, j ∈ (g.adjust m').available ↔ j ∈ g.available ∧ j < m') := by
  refine ⟨?_, ?_, ?_, ?_, ?_⟩
  · intro h
    refine ⟨g.available.min' h, ?_, g.available.min'_mem h, ?_, ?_⟩
    · simp [IdentityGroup.acquire, h]
    · intro y hy
      exact g.available.min'_le y hy
    · simp [IdentityGroup.acquire, h]
  · intro h
    have hne : ¬ g.available.Nonempty := by simp [h]
    constructor <;> simp [IdentityGroup.acquire, hne]
  · by_cases hi : i < g.count <;> simp [IdentityGroup.release, hi]
  · simp [IdentityGroup.adjust, Nat.le_of_lt hup]
  · intro j
    have hle : ¬ g.count ≤ m' := Nat.not_le_of_lt hdown
    simp [IdentityGroup.adjust, hle]

/-- Witness for C7 at the concrete group of `IdentityGroupTest.test_adjust`
(count 5, available `{1, 3}`), with `i = 1`, `m = 7`, `m' = 3`. -/
theorem C7_identity_group_witness :
    (5 : ℕ) < 7 ∧ (3 : ℕ) < 5 ∧
    ((⟨5, {1, 3}⟩ : IdentityGroup).adjust 7).available = {1, 3} ∪ Finset.Ico 5 7 ∧
    (∀ j, j ∈ ((⟨5, {1, 3}⟩ : IdentityGroup).adjust 3).available ↔
        j ∈ ({1, 3} : Finset ℕ) ∧ j < 3) := by
  refine ⟨by decide, by decide, ?_, ?_⟩
  · exact (C7_identity_group ⟨5, {1, 3}⟩ 1 7 3 (by decide) (by decide)).2.2.2.1
  · exact (C7_identity_group ⟨5, {1, 3}⟩ 1 7 3 (by decide) (by decide)).2.2.2.2

/-- Modelled from the spec: the `Application` data model of the missing
module `treadmill/scheduler.py`: name, priority, demand vector, affinity,
optional per-level affinity caps, optional identity group, `schedule_once`
flag, retention timeout, current placement, `evicted` flag, placement
expiry and an insertion sequence number guaranteeing determinism. -/
structure Application where
  name : String
  priority : ℕ
  demand : Vec
  affinity : String
  affinity_limits : List (String × ℕ) := []
  identity_group : Option String := none
  identity : Option ℕ := none
  schedule_once : Bool := false
  data_retention_timeout : ℤ := 0
  server : Option String := none
  evicted : Bool := false
  placement_expiry : Option ℤ := none
  seq : ℕ := 0
  label : Option String := none
  traitDemand : ℕ := 0
  deriving DecidableEq

/-- Insert into a sorted list, before the first element that `le` places
after `x` (a stable insertion sort step). -/
def insertSorted (le : α → α → Bool) (x : α) : List α → List α
  | [] => [x]
  | y :: ys => if le x y then x :: y :: ys else y :: insertSorted le x ys

/-- Stable insertion sort used for the scan order and the k-way merge. -/
def sortBy (le : α → α → Bool) : List α → List α
  | [] => []
  | x :: xs => insertSorted le x (sortBy le xs)

/-- Modelled from the spec: scan order of an allocation's owned apps --
priority descending, then status (apps with an assigned server first),
then insertion order. -/
def appOrder (a b : Application) : Bool :=
  if a.priority ≠ b.priority then decide (b.priority < a.priority)
  else if a.server.isSome ≠ b.server.isSome then a.server.isSome
  else decide (a.seq ≤ b.seq)

/-- A utilization value: either an explicit fraction (numerator and
positive denominator, compared by cross-multiplication without
normalizing) or plus infinity (the utilization of priority-zero apps). -/
inductive UtilV where
  | fin (num den : ℤ)
  | inf
  deriving DecidableEq

namespace UtilV

/-- The rational value of a utilization (infinity mapped to `⊤`). -/
def toRat : UtilV → WithTop ℚ
  | .fin n d => ((n : ℚ) / (d : ℚ) : ℚ)
  | .inf => ⊤

/-- Value equality of utilizations by cross-multiplication. -/
def eqv : UtilV → UtilV → Bool
  | .fin n1 d1, .fin n2 d2 => decide (n1 * d2 = n2 * d1)
  | .inf, .inf => true
  | _, _ => false

/-- Strict comparison of utilizations by cross-multiplication. -/
def ltv : UtilV → UtilV → Bool
  | .fin n1 d1, .fin n2 d2 => decide (n1 * d2 < n2 * d1)
  | .fin _ _, .inf => true
  | .inf, _ => false

end UtilV

/-- An entry of the utilization queue: rank (the app's priority),
utilization, sequence number, and the app. -/
structure QEntry where
  rank : ℕ
  util : UtilV
  seq : ℕ
  app : Application
  deriving DecidableEq

/-- Total demand of a list of apps. -/
def sumDemands (apps : List Application) : Vec :=
  apps.foldr (fun a acc => vadd a.demand acc) vzero

/-- Modelled from the spec: utilization of an app given the allocation's
reserved vector, the parent available vector and the running consumption:
priority zero gives plus infinity, otherwise
(l1(C + d) - l1(reserved)) / (l1(reserved) + l1(parent_available)). -/
def utilizationOf (reserved pa acc : Vec) (a : Application) : UtilV :=
  if a.priority = 0 then .inf
  else .fin (l1 (vadd acc a.demand) - l1 reserved) (l1 reserved + l1 pa)

/-- Modelled from the spec: the `max_utilization` stopping rule -- stop
emitting once the utilization exceeds the cap (the cap is itself a
fraction with positive denominator). -/
def stopAt (maxU : Option (ℤ × ℤ)) (u : UtilV) : Bool :=
  match maxU with
  | none => false
  | some cap => UtilV.ltv (.fin cap.1 cap.2) u

/-- Modelled from the spec: the scan of an allocation's own apps: emit
`(rank, utilization, seq, app)` maintaining the running consumption,
stopping at the `max_utilization` cap. -/
def ownQueue (reserved : Vec) (maxU : Option (ℤ × ℤ)) (pa : Vec) :
    Vec → List Application → List QEntry
  | _, [] => []
  | acc, a :: rest =>
      let u := utilizationOf reserved pa acc a
      if stopAt maxU u then []
      else ⟨a.priority, u, a.seq, a⟩ :: ownQueue reserved maxU pa (vadd acc a.demand) rest

/-- Modelled from the spec: an `Allocation`: nullable reserved vector,
nullable `max_utilization` cap, owned applications, sub-allocations. -/
inductive Allocation where
  | mk (reserved : Option Vec) (max_utilization : Option (ℤ × ℤ))
       (apps : List Application) (subs : List Allocation)

namespace Allocation

/-- The allocation's reserved vector, the zero vector when absent. -/
def reservedVec : Allocation → Vec
  | .mk r _ _ _ => r.getD vzero

/-- The allocation's `max_utilization` cap. -/
def maxU : Allocation → Option (ℤ × ℤ)
  | .mk _ mu _ _ => mu

/-- The allocation's own apps. -/
def apps : Allocation → List Application
  | .mk _ _ as _ => as

/-- The allocation's sub-allocations. -/
def subs : Allocation → List Allocation
  | .mk _ _ _ ss => ss

mutual

/-- Modelled from the spec: total reserved is the allocation's own reserved
plus the sum of the total reserved of its sub-allocations. -/
def total_reserved : Allocation → Vec
  | .mk r _ _ ss => vadd (r.getD vzero) (totalReservedList ss)

/-- Sum of the total reserved of a list of allocations. -/
def totalReservedList : List Allocation → Vec
  | [] => vzero
  | s :: ss => vadd s.total_reserved (totalReservedList ss)

end

/-- Modelled from the spec: the parent available vector forwarded to each
sub-allocation: own parent available plus reserved minus the demand
consumed by the parent's own apps. -/
def forwarded (al : Allocation) (pa : Vec) : Vec :=
  vsub (vadd pa al.reservedVec) (sumDemands al.apps)

end Allocation

/-- Ordering key of the merged utilization queue: higher rank first, then
utilization ascending, then sequence number ascending. -/
def entryLE (x y : QEntry) : Bool :=
  if x.rank ≠ y.rank then decide (y.rank < x.rank)
  else if ¬ UtilV.eqv x.util y.util then UtilV.ltv x.util y.util
  else decide (x.seq ≤ y.seq)

mutual

/-- Modelled from the spec: `utilization_queue`: the allocation's own
stream (its apps scanned in priority-descending, status-first, insertion
order) is k-way merged with the recursively computed streams of its
sub-allocations, each computed against the forwarded parent available,
ordered by `(-rank, utilization, sequence_no)`. -/
def Allocation.utilization_queue : Allocation → Vec → List QEntry
  | .mk r mu as ss, pa =>
      sortBy entryLE
        (Allocation.subQueues ss ((Allocation.mk r mu as ss).forwarded pa) ++
          ownQueue (r.getD vzero) mu pa vzero (sortBy appOrder as))

/-- Concatenation of the sub-allocations' recursively computed streams. -/
def Allocation.subQueues : List Allocation → Vec → List QEntry
  | [], _ => []
  | s :: ss, fwd => s.utilization_queue fwd ++ Allocation.subQueues ss fwd

end

/-! Basic lemmas about resource vectors and the sorting helpers. -/

theorem vadd_length (a b : Vec) : (vadd a b).length = min a.length b.length := by
  simp [vadd]

theorem l1_vzero : l1 vzero = 0 := by
  simp [l1, vzero]

theorem l1_vadd (a : Vec) : ∀ b : Vec, a.length = b.length → l1 (vadd a b) = l1 a + l1 b := by
  induction a with
  | nil =>
      intro b h
      cases b with
      | nil => simp [l1, vadd]
      | cons y ys => simp at h
  | cons x xs ih =>
      intro b h
      cases b with
      | nil => simp at h
      | cons y ys =>
          have hrec := ih ys (by simpa using h)
          simp [l1, vadd] at hrec ⊢
          rw [hrec]
          ring

theorem sumDemands_length :
    ∀ apps : List Application, (∀ a ∈ apps, a.demand.length = DIMENSION_COUNT) →
      (sumDemands apps).length = DIMENSION_COUNT := by
  intro apps
  induction apps with
  | nil => intro _; simp [sumDemands, vzero]
  | cons a as ih =>
      intro h
      have h1 : a.demand.length = DIMENSION_COUNT := h a (by simp)
      have h2 : (sumDemands as).length = DIMENSION_COUNT :=
        ih (fun b hb => h b (by simp [hb]))
      show (vadd a.demand (sumDemands as)).length = DIMENSION_COUNT
      rw [vadd_length, h1, h2, Nat.min_self]

theorem mem_insertSorted (le : α → α → Bool) (x y : α) :
    ∀ l : List α, y ∈ insertSorted le x l ↔ y = x ∨ y ∈ l := by
  intro l
  induction l with
  | nil => simp [insertSorted]
  | cons z zs ih =>
      by_cases hle : le x z
      · simp [insertSorted, hle]
      · simp [insertSorted, hle, ih]
        tauto

theorem mem_sortBy (le : α → α → Bool) (y : α) :
    ∀ l : List α, y ∈ sortBy le l ↔ y ∈ l := by
  intro l
  induction l with
  | nil => simp [sortBy]
  | cons z zs ih => simp [sortBy, mem_insertSorted, ih]

/-! Lemmas about the utilization scan. -/

theorem ownQueue_cons (R pa acc : Vec) (a : Application) (rest : List Application) :
    ownQueue R none pa acc (a :: rest) =
      ⟨a.priority, utilizationOf R pa acc a, a.seq, a⟩ ::
        ownQueue R none pa (vadd acc a.demand) rest := by
  simp [ownQueue, stopAt]

theorem ownQueue_app_mem (R : Vec) (mu : Option (ℤ × ℤ)) (pa : Vec) :
    ∀ (apps : List Application) (acc : Vec) (e : QEntry),
      e ∈ ownQueue R mu pa acc apps → e.app ∈ apps := by
  intro apps
  induction apps with
  | nil => intro acc e he; simp [ownQueue] at he
  | cons a rest ih =>
      intro acc e he
      simp only [ownQueue] at he
      by_cases hstop : stopAt mu (utilizationOf R pa acc a)
      · simp [hstop] at he
      · simp [hstop] at he
        rcases he with he | he
        · simp [he]
        · exact List.mem_cons_of_mem _ (ih (vadd acc a.demand) e he)

/-- The central scan lemma: with no `max_utilization` cap, the `i`-th emitted
entry of the scan receives the utilization
`(l1 acc + l1 C + l1 d_i - l1 R) / (l1 R + l1 pa)` where `C` is the sum of
the demands of the previously emitted apps. -/
theorem ownQueue_util (R pa : Vec) :
    ∀ (apps : List Application) (acc : Vec),
      acc.length = DIMENSION_COUNT →
      (∀ a ∈ apps, a.demand.length = DIMENSION_COUNT) →
      ∀ (i : ℕ) (e : QEntry), (ownQueue R none pa acc apps)[i]? = some e →
        e.app.priority ≠ 0 →
        e.util =
          .fin (l1 acc +
              l1 (sumDemands (((ownQueue R none pa acc apps).take i).map QEntry.app)) +
              l1 e.app.demand - l1 R)
            (l1 R + l1 pa) := by
  intro apps
  induction apps with
  | nil =>
      intro acc _ _ i e he
      simp [ownQueue] at he
  | cons a rest ih =>
      intro acc hacc hd i e he hp
      rw [ownQueue_cons] at he ⊢
      cases i with
      | zero =>
          simp only [List.getElem?_cons_zero, Option.some.injEq] at he
          subst he
          simp only [List.take, List.map, sumDemands, List.foldr]
          rw [show utilizationOf R pa acc a =
              .fin (l1 (vadd acc a.demand) - l1 R) (l1 R + l1 pa) from by
            simp only [utilizationOf]
            simp at hp
            simp [hp]]
          rw [l1_vadd acc a.demand (by rw [hacc, hd a (by simp)])]
          rw [show l1 vzero = 0 from l1_vzero]
          ring_nf
      | succ j =>
          have hd' : ∀ b ∈ rest, b.demand.length = DIMENSION_COUNT :=
            fun b hb => hd b (by simp [hb])
          have hacc' : (vadd acc a.demand).length = DIMENSION_COUNT := by
            rw [vadd_length, hacc, hd a (by simp), Nat.min_self]
          simp only [List.getElem?_cons_succ] at he
          have hrec := ih (vadd acc a.demand) hacc' hd' j e he hp
          rw [hrec]
          have hprefapps : ∀ x ∈ (ownQueue R none pa (vadd acc a.demand) rest).take j,
              x.app ∈ rest := fun x hx =>
            ownQueue_app_mem R none pa rest (vadd acc a.demand) x (List.mem_of_mem_take hx)
          have hpreflen :
              (sumDemands (((ownQueue R none pa (vadd acc a.demand) rest).take j).map
                QEntry.app)).length = DIMENSION_COUNT := by
            apply sumDemands_length
            intro b hb
            simp only [List.mem_map] at hb
            obtain ⟨x, hx, rfl⟩ := hb
            exact hd' x.app (hprefapps x hx)
          show _ = UtilV.fin ( l1 acc +
              l1 (sumDemands (QEntry.app
                { rank := a.priority, util := utilizationOf R pa acc a, seq := a.seq, app := a } ::
                ((ownQueue R none pa (vadd acc a.demand) rest).take j).map QEntry.app)) +
              l1 e.app.demand - l1 R) (l1 R + l1 pa)
          show _ = UtilV.fin ( l1 acc +
              l1 (vadd a.demand (sumDemands (((ownQueue R none pa (vadd acc a.demand)
                rest).take j).map QEntry.app))) +
              l1 e.app.demand - l1 R) (l1 R + l1 pa)
          rw [l1_vadd acc a.demand (by rw [hacc, hd a (by simp)])]
          rw [l1_vadd a.demand _ (by rw [hd a (by simp), hpreflen])]
          ring_nf

theorem mem_subQueues (e : QEntry) :
    ∀ (ss : List Allocation) (fwd : Vec),
      e ∈ Allocation.subQueues ss fwd ↔ ∃ s ∈ ss, e ∈ s.utilization_queue fwd := by
  intro ss
  induction ss with
  | nil => intro fwd; simp [Allocation.subQueues]
  | cons s rest ih =>
      intro fwd
      simp [Allocation.subQueues, List.mem_append, ih]

/-- `StreamOf a pa b pb`: allocation `b`, reached from `a` through the
sub-allocation hierarchy, computes its own stream against the parent
available vector `pb` obtained by repeated forwarding from `pa`. -/
inductive StreamOf : Allocation → Vec → Allocation → Vec → Prop
  | refl (a : Allocation) (pa : Vec) : StreamOf a pa a pa
  | sub {a : Allocation} {pa : Vec} {s b : Allocation} {pb : Vec} :
      s ∈ a.subs → StreamOf s (a.forwarded pa) b pb → StreamOf a pa b pb

/-- Every entry of the merged utilization queue originates, unchanged, from
the own-app scan of some (sub-)allocation of the hierarchy computed against
that allocation's forwarded parent available vector. -/
theorem utilization_queue_stream :
    ∀ (al : Allocation) (pa : Vec) (e : QEntry),
      e ∈ al.utilization_queue pa →
      ∃ b pb, StreamOf al pa b pb ∧
        e ∈ ownQueue b.reservedVec b.maxU pb vzero (sortBy appOrder b.apps)
  | .mk r mu as ss, pa, e, he => by
      rw [Allocation.utilization_queue] at he
      rw [mem_sortBy, List.mem_append] at he
      rcases he with hsub | hown
      · rw [mem_subQueues] at hsub
        obtain ⟨s, hs, hel⟩ := hsub
        obtain ⟨b, pb, hstream, hmem⟩ := utilization_queue_stream s _ e hel
        exact ⟨b, pb, StreamOf.sub hs hstream, hmem⟩
      · refine ⟨.mk r mu as ss, pa, StreamOf.refl _ _, ?_⟩
        simpa [Allocation.reservedVec, Allocation.maxU, Allocation.apps] using hown
termination_by al _ _ _ => sizeOf al
decreasing_by
  exact Nat.lt_of_lt_of_le (List.sizeOf_lt_of_mem hs) (by simp)

/-- The concrete allocation of `AllocationTest.test_utilization`:
reserved `[10, 10]`, three apps of priority 100 with demands `[1, 1]`,
`[2, 2]`, `[3, 3]`. -/
def allocC1 : Allocation :=
  .mk (some [10, 10]) none
    [{ name := "app1", priority := 100, demand := [1, 1], affinity := "app1", seq := 0 },
     { name := "app2", priority := 100, demand := [2, 2], affinity := "app1", seq := 1 },
     { name := "app3", priority := 100, demand := [3, 3], affinity := "app1", seq := 2 }] []

/-- C1: the utilization queue of an allocation assigns each emitted app the
utilization `(l1(C + d_i) - l1 R) / (l1 R + l1 P)` where `C` is the running
sum of the demands of previously emitted apps and `R` the reserved vector
(zero when absent); on the concrete allocation of
`AllocationTest.test_utilization` the emitted utilizations are
`-9/30, -7/30, -4/30` in that order; and every entry merged from a
sub-allocation obeys the same formula relative to its own allocation's
reserved vector and forwarded parent available. -/
theorem C1_utilization_queue :
    (∀ (R : Option Vec) (apps : List Application) (pa : Vec),
      (∀ a ∈ apps, a.demand.length = DIMENSION_COUNT) →
      ∀ (i : ℕ) (e : QEntry),
        (ownQueue (R.getD vzero) none pa vzero (sortBy appOrder apps))[i]? = some e →
        e.app.priority ≠ 0 →
        e.util.toRat =
          ((((l1 (sumDemands (((ownQueue (R.getD vzero) none pa vzero
                  (sortBy appOrder apps)).take i).map QEntry.app)) +
              l1 e.app.demand - l1 (R.getD vzero) : ℤ) : ℚ) /
             ((l1 (R.getD vzero) + l1 pa : ℤ) : ℚ) : ℚ) : WithTop ℚ)) ∧
    ((allocC1.utilization_queue [20, 20]).map (fun e => (e.app.name, e.util.toRat)) =
      [("app1", ((-9 / 30 : ℚ) : WithTop ℚ)),
       ("app2", ((-7 / 30 : ℚ) : WithTop ℚ)),
       ("app3", ((-4 / 30 : ℚ) : WithTop ℚ))]) ∧
    (∀ (al : Allocation) (pa : Vec) (e : QEntry),
      e ∈ al.utilization_queue pa →
      ∃ b pb, StreamOf al pa b pb ∧
        e ∈ ownQueue b.reservedVec b.maxU pb vzero (sortBy appOrder b.apps)) := by
  refine ⟨?_, ?_, utilization_queue_stream⟩
  · intro R apps pa hd i e he hp
    have hsorted : ∀ a ∈ sortBy appOrder apps, a.demand.length = DIMENSION_COUNT := by
      intro a ha
      exact hd a ((mem_sortBy appOrder a apps).mp ha)
    have hu := ownQueue_util (R.getD vzero) pa (sortBy appOrder apps) vzero
      (by simp [vzero]) hsorted i e he hp
    rw [hu, show l1 vzero = 0 from l1_vzero]
    simp [UtilV.toRat]
  · have hq : allocC1.utilization_queue [20, 20] =
        [⟨100, .fin (-18) 60, 0,
          { name := "app1", priority := 100, demand := [1, 1], affinity := "app1", seq := 0 }⟩,
         ⟨100, .fin (-14) 60, 1,
          { name := "app2", priority := 100, demand := [2, 2], affinity := "app1", seq := 1 }⟩,
         ⟨100, .fin (-8) 60, 2,
          { name := "app3", priority := 100, demand := [3, 3], affinity := "app1", seq := 2 }⟩] := by
      decide
    rw [hq]
    simp [UtilV.toRat]
    norm_num

/-- Witness for C1: the general formula instantiated on the head entry of
the concrete allocation's queue. -/
theorem C1_utilization_queue_witness :
    ∃ e : QEntry,
      (ownQueue ((some [10, 10] : Option Vec).getD vzero) none [20, 20] vzero
        (sortBy appOrder allocC1.apps))[0]? = some e ∧
      e.util.toRat =
        ((((l1 (sumDemands (((ownQueue ((some [10, 10] : Option Vec).getD vzero) none [20, 20]
                vzero (sortBy appOrder allocC1.apps)).take 0).map QEntry.app)) +
            l1 e.app.demand - l1 ((some [10, 10] : Option Vec).getD vzero) : ℤ) : ℚ) /
           ((l1 ((some [10, 10] : Option Vec).getD vzero) + l1 [20, 20] : ℤ) : ℚ) : ℚ) :
          WithTop ℚ) := by
  have he : (ownQueue ((some [10, 10] : Option Vec).getD vzero) none [20, 20] vzero
      (sortBy appOrder allocC1.apps))[0]? =
      some ⟨100, .fin (-18) 60, 0,
        ⟨"app1", 100, [1, 1], "app1", [], none, none, false, 0, none, false, none, 0, none, 0⟩⟩ := by
    decide
  exact ⟨_, he,
    C1_utilization_queue.1 (some [10, 10]) allocC1.apps [20, 20] (by decide) 0 _ he (by decide)⟩

/-! The Node tree: Buckets and Servers, modelled from spec sections 3, 4.1,
4.2, 4.4 and 4.5. -/

/-- Modelled from the spec: server state. -/
inductive NState where
  | up | down | frozen
  deriving DecidableEq

/-- A placed app as recorded on a server: name, demand, affinity. -/
structure PlacedApp where
  name : String
  demand : Vec
  affinity : String
  deriving DecidableEq

/-- Modelled from the spec: the `Server` leaf data: name, total capacity,
stored free capacity, trait bitmask, optional label, state, `valid_until`
and the apps placed on it.  The per-affinity counter of a node is recovered
from the subtree (the spec's invariant equates the stored counter with the
number of placed apps of that affinity in the subtree). -/
structure ServerData where
  name : String
  capacity : Vec
  free_capacity : Vec
  traits : ℕ := 0
  label : Option String := none
  state : NState := .up
  valid_until : ℤ
  apps : List PlacedApp := []
  deriving DecidableEq

/-- Modelled from the spec: a per-affinity placement strategy. -/
inductive Strategy where
  | spread | pack
  deriving DecidableEq

/-- Modelled from the spec: the `Bucket` inner-node data: name, level tag,
stored free capacity (componentwise maximum over children), stored
`valid_until` (maximum over children), own trait bitmask, per-affinity
strategy map and per-affinity rotation indexes. -/
structure BucketData where
  name : String
  level : String := "bucket"
  free_capacity : Vec := vzero
  valid_until : ℤ := 0
  traits : ℕ := 0
  strategies : List (String × Strategy) := []
  rotation : List (String × ℕ) := []
  deriving DecidableEq

/-- Modelled from the spec: a Node is a Bucket (inner node with ordered
children) or a Server (leaf). -/
inductive Node where
  | server (s : ServerData)
  | bucket (b : BucketData) (children : List Node)

namespace Node

/-- The node's name. -/
def nodeName : Node → String
  | .server s => s.name
  | .bucket b _ => b.name

/-- The node's stored free capacity. -/
def freeCap : Node → Vec
  | .server s => s.free_capacity
  | .bucket b _ => b.free_capacity

/-- The node's stored `valid_until`. -/
def validUntil : Node → ℤ
  | .server s => s.valid_until
  | .bucket b _ => b.valid_until

/-- The node's level tag; a server's level is `server`. -/
def levelOf : Node → String
  | .server _ => "server"
  | .bucket b _ => b.level

end Node

/-- Componentwise maximum of the children's stored free capacities (the
zero vector for an empty bucket). -/
def capMaxOver : List Node → Vec
  | [] => vzero
  | [c] => c.freeCap
  | c :: rest => vmax c.freeCap (capMaxOver rest)

/-- Maximum of the children's stored `valid_until` (zero for an empty
bucket). -/
def vuMaxOver : List Node → ℤ
  | [] => 0
  | [c] => c.validUntil
  | c :: rest => max c.validUntil (vuMaxOver rest)

/-- Modelled from the spec: rebuilding a bucket recomputes its stored free
capacity and `valid_until` from its children (the bottom-up recompute
triggered by every mutation). -/
def mkBucket (b : BucketData) (cs : List Node) : Node :=
  .bucket { b with free_capacity := capMaxOver cs, valid_until := vuMaxOver cs } cs

mutual

/-- The affinity counter of a node: the number of placed apps with that
affinity in its subtree (the spec's stored-counter invariant). -/
def Node.affinity_counter : Node → String → ℕ
  | .server s, f => (s.apps.filter (fun p => p.affinity = f)).length
  | .bucket _ cs, f => counterList cs f

/-- Sum of the children's affinity counters. -/
def counterList : List Node → String → ℕ
  | [], _ => 0
  | c :: rest, f => c.affinity_counter f + counterList rest f

end

mutual

/-- Modelled from the spec: trait aggregation -- the effective trait mask
of a node is its own mask OR-ed with the children's effective masks. -/
def Node.traitsOf : Node → ℕ
  | .server s => s.traits
  | .bucket b cs => b.traits ||| traitsList cs

/-- OR of the children's effective trait masks. -/
def traitsList : List Node → ℕ
  | [] => 0
  | c :: rest => c.traitsOf ||| traitsList rest

end

mutual

/-- Modelled from the spec (4.2): a node is an eligible placement candidate
for an app iff its subtree contains at least one server satisfying the
app's trait demand and whose label equals the app's allocation label. -/
def Node.eligible : Node → Application → Bool
  | .server s, a => (a.traitDemand &&& s.traits = a.traitDemand) && s.label = a.label
  | .bucket _ cs, a => eligibleList cs a

/-- Whether any child subtree contains an eligible server. -/
def eligibleList : List Node → Application → Bool
  | [], _ => false
  | c :: rest, a => c.eligible a || eligibleList rest a

end

/-- Modelled from the spec (4.5): the affinity-limit check at a node --
placement is rejected when the app declares a cap for the node's level and
the node's affinity counter for the app's affinity has already reached it. -/
def limitOk (n : Node) (a : Application) : Bool :=
  match a.affinity_limits.find? (fun p => p.1 = n.levelOf) with
  | some p => decide (n.affinity_counter a.affinity < p.2)
  | none => true

/-- Modelled from the spec (4.1): `Server.put` -- succeeds iff the server
is up, the trait demand is satisfied, the label matches, the server-level
affinity cap holds and the demand fits in the stored free capacity; on
success it subtracts the demand and records the app. -/
def ServerData.tryPut (s : ServerData) (a : Application) : Option ServerData :=
  if s.state = NState.up ∧ (a.traitDemand &&& s.traits = a.traitDemand) ∧ s.label = a.label ∧
      limitOk (.server s) a ∧ fits a.demand s.free_capacity then
    some { s with free_capacity := vsub s.free_capacity a.demand,
                  apps := s.apps ++ [⟨a.name, a.demand, a.affinity⟩] }
  else none

/-- The bucket's strategy for an affinity (Spread when unset). -/
def strategyFor (b : BucketData) (f : String) : Strategy :=
  match b.strategies.find? (fun p => p.1 = f) with
  | some p => p.2
  | none => .spread

/-- The bucket's rotation index for an affinity (0 when unset). -/
def rotationFor (b : BucketData) (f : String) : ℕ :=
  match b.rotation.find? (fun p => p.1 = f) with
  | some p => p.2
  | none => 0

/-- Update the bucket's rotation index for an affinity after a placement
through the child at position `j` (spec 4.4): Spread advances past `j`,
Pack stays at `j`. -/
def advanceRotation (b : BucketData) (f : String) (j n : ℕ) : BucketData :=
  let idx := match strategyFor b f with
    | .spread => (j + 1) % n
    | .pack => j
  { b with rotation := (f, idx) :: b.rotation.filter (fun p => ¬ p.1 = f) }

mutual

/-- Modelled from the spec (4.4, 4.6): recursive placement.  At a server,
`Server.put`.  At a bucket: the affinity-limit check and the capacity
filter first, then the children are tried in rotation order starting at
the affinity's rotation index, skipping ineligible subtrees; on success
the rotation index advances per the strategy and the caches recompute.
Returns the updated node and the name of the accepting server. -/
def Node.put : Node → Application → Option (Node × String)
  | .server s, a => (s.tryPut a).map (fun s' => (.server s', s.name))
  | .bucket b cs, a =>
      if limitOk (.bucket b cs) a ∧ fits a.demand b.free_capacity then
        let n := cs.length
        let idx := rotationFor b a.affinity % n
        match putRange cs 0 idx n a with
        | some (cs', j, srv) => some (mkBucket (advanceRotation b a.affinity j n) cs', srv)
        | none =>
            match putRange cs 0 0 idx a with
            | some (cs', j, srv) => some (mkBucket (advanceRotation b a.affinity j n) cs', srv)
            | none => none
      else none

/-- Try to place the app into the children whose position `pos` satisfies
`lo ≤ pos < hi`, in order; returns the updated children, the position of
the accepting child and the accepting server's name. -/
def putRange : List Node → ℕ → ℕ → ℕ → Application → Option (List Node × ℕ × String)
  | [], _, _, _, _ => none
  | c :: rest, pos, lo, hi, a =>
      if lo ≤ pos ∧ pos < hi ∧ c.eligible a then
        match c.put a with
        | some (c', srv) => some (c' :: rest, pos, srv)
        | none => (putRange rest (pos + 1) lo hi a).map (fun r => (c :: r.1, r.2))
      else (putRange rest (pos + 1) lo hi a).map (fun r => (c :: r.1, r.2))

end

mutual

/-- Modelled from the spec (4.1): `add_node` -- link the child under the
named bucket and recompute the caches of every ancestor. -/
def Node.add_node : Node → String → Node → Option Node
  | .server _, _, _ => none
  | .bucket b cs, parent, child =>
      if b.name = parent then some (mkBucket b (cs ++ [child]))
      else (addList cs parent child).map (mkBucket b)

/-- Add the child under the named bucket inside the first child subtree
that contains it. -/
def addList : List Node → String → Node → Option (List Node)
  | [], _, _ => none
  | c :: rest, parent, child =>
      match c.add_node parent child with
      | some c' => some (c' :: rest)
      | none => (addList rest parent child).map (c :: ·)

end

mutual

/-- Modelled from the spec (4.1): `remove_node` -- unlink the named child
and recompute the caches of every ancestor. -/
def Node.remove_node : Node → String → Option Node
  | .server _, _ => none
  | .bucket b cs, name =>
      if cs.any (fun c => c.nodeName = name) then
        some (mkBucket b (cs.filter (fun c => ¬ c.nodeName = name)))
      else (removeNodeList cs name).map (mkBucket b)

/-- Remove the named node inside the first child subtree containing it. -/
def removeNodeList : List Node → String → Option (List Node)
  | [], _ => none
  | c :: rest, name =>
      match c.remove_node name with
      | some c' => some (c' :: rest)
      | none => (removeNodeList rest name).map (c :: ·)

end

mutual

/-- Modelled from the spec (4.1): `Server.put` addressed through the tree:
place the app directly on the named server (checks and bookkeeping as in
`Server.put`) and recompute the caches of every ancestor. -/
def Node.putAt : Node → String → Application → Option Node
  | .server s, srv, a => if s.name = srv then (s.tryPut a).map .server else none
  | .bucket b cs, srv, a => (putAtList cs srv a).map (mkBucket b)

/-- Place on the named server inside the first child subtree containing it. -/
def putAtList : List Node → String → Application → Option (List Node)
  | [], _, _ => none
  | c :: rest, srv, a =>
      match c.putAt srv a with
      | some c' => some (c' :: rest)
      | none => (putAtList rest srv a).map (c :: ·)

end

mutual

/-- Modelled from the spec (4.1): `remove(app_name)` -- remove the named
app from the named server, add its demand back to the free capacity and
recompute the caches of every ancestor. -/
def Node.removeApp : Node → String → String → Option Node
  | .server s, srv, appName =>
      if s.name = srv then
        match s.apps.find? (fun p => p.name = appName) with
        | some p => some (.server { s with
            free_capacity := vadd s.free_capacity p.demand,
            apps := s.apps.filter (fun q => ¬ q.name = appName) })
        | none => none
      else none
  | .bucket b cs, srv, appName => (removeAppList cs srv appName).map (mkBucket b)

/-- Remove the app inside the first child subtree containing the server. -/
def removeAppList : List Node → String → String → Option (List Node)
  | [], _, _ => none
  | c :: rest, srv, appName =>
      match c.removeApp srv appName with
      | some c' => some (c' :: rest)
      | none => (removeAppList rest srv appName).map (c :: ·)

end

mutual

/-- Look up a server's data by name. -/
def Node.findServer : Node → String → Option ServerData
  | .server s, srv => if s.name = srv then some s else none
  | .bucket _ cs, srv => findServerList cs srv

/-- Look up a server's data in a list of subtrees. -/
def findServerList : List Node → String → Option ServerData
  | [], _ => none
  | c :: rest, srv =>
      match c.findServer srv with
      | some s => some s
      | none => findServerList rest srv

end

mutual

/-- Mark the named server's state (a between-cycles mutator). -/
def Node.setState : Node → String → NState → Node
  | .server s, srv, st => if s.name = srv then .server { s with state := st } else .server s
  | .bucket b cs, srv, st => .bucket b (setStateList cs srv st)

/-- Mark the named server's state in a list of subtrees. -/
def setStateList : List Node → String → NState → List Node
  | [], _, _ => []
  | c :: rest, srv, st => c.setState srv st :: setStateList rest srv st

end

mutual

/-- Set the per-affinity strategy of the named bucket (a between-cycles
mutator). -/
def Node.set_affinity_strategy : Node → String → String → Strategy → Node
  | .server s, _, _, _ => .server s
  | .bucket b cs, bname, f, st =>
      if b.name = bname then
        .bucket { b with strategies := (f, st) :: b.strategies.filter (fun p => ¬ p.1 = f) } cs
      else .bucket b (setStrategyList cs bname f st)

/-- Set the strategy inside a list of subtrees. -/
def setStrategyList : List Node → String → String → Strategy → List Node
  | [], _, _, _ => []
  | c :: rest, bname, f, st =>
      c.set_affinity_strategy bname f st :: setStrategyList rest bname f st

end

mutual

/-- The total size of a subtree: the sum of its servers' total capacities. -/
def Node.sizeVec : Node → Vec
  | .server s => s.capacity
  | .bucket _ cs => sizeList cs

/-- Sum of the subtree sizes of a list of nodes. -/
def sizeList : List Node → Vec
  | [] => vzero
  | c :: rest => vadd c.sizeVec (sizeList rest)

end

mutual

/-- The cache invariant: every bucket's stored free capacity is the
componentwise maximum of its children's, and its stored `valid_until` the
maximum of its children's. -/
def Node.invOk : Node → Bool
  | .server _ => true
  | .bucket b cs =>
      decide (b.free_capacity = capMaxOver cs) && decide (b.valid_until = vuMaxOver cs) &&
        invList cs

/-- The cache invariant on every node of a list of subtrees. -/
def invList : List Node → Bool
  | [] => true
  | c :: rest => c.invOk && invList rest

end

mutual

/-- All bucket occurrences of the tree, each with its list of children. -/
def Node.bucketsOf : Node → List (BucketData × List Node)
  | .server _ => []
  | .bucket b cs => (b, cs) :: bucketsList cs

/-- All bucket occurrences in a list of subtrees. -/
def bucketsList : List Node → List (BucketData × List Node)
  | [] => []
  | c :: rest => c.bucketsOf ++ bucketsList rest

end

/-! Preservation of the bucket-cache invariant (claim C2). -/

theorem invList_append : ∀ xs ys : List Node,
    invList (xs ++ ys) = (invList xs && invList ys) := by
  intro xs ys
  induction xs with
  | nil => simp [invList]
  | cons c rest ih => simp [invList, ih, Bool.and_assoc]

theorem invList_filter (pred : Node → Bool) :
    ∀ cs : List Node, invList cs = true → invList (cs.filter pred) = true := by
  intro cs
  induction cs with
  | nil => intro _; simp [invList]
  | cons c rest ih =>
      intro h
      simp only [invList, Bool.and_eq_true] at h
      by_cases hp : pred c
      · simp [List.filter, hp, invList, h.1, ih h.2]
      · simp [List.filter, hp, ih h.2]

theorem invOk_mkBucket (b : BucketData) (cs : List Node) (h : invList cs = true) :
    (mkBucket b cs).invOk = true := by
  simp [mkBucket, Node.invOk, h]

theorem invOk_bucket_elim (b : BucketData) (cs : List Node)
    (h : (Node.bucket b cs).invOk = true) :
    b.free_capacity = capMaxOver cs ∧ b.valid_until = vuMaxOver cs ∧ invList cs = true := by
  simp only [Node.invOk, Bool.and_eq_true, decide_eq_true_eq] at h
  exact ⟨h.1.1, h.1.2, h.2⟩

mutual

theorem add_inv : ∀ (t : Node) (p : String) (child : Node),
    t.invOk = true → child.invOk = true →
    ∀ t', t.add_node p child = some t' → t'.invOk = true
  | .server s, p, child => by
      intro _ _ t' ht'
      simp [Node.add_node] at ht'
  | .bucket b cs, p, child => by
      intro hinv hchild t' ht'
      obtain ⟨_, _, hlist⟩ := invOk_bucket_elim b cs hinv
      simp only [Node.add_node] at ht'
      by_cases hname : b.name = p
      · simp [hname] at ht'
        subst ht'
        exact invOk_mkBucket _ _ (by simp [invList_append, hlist, invList, hchild])
      · simp only [hname, if_false, Option.map_eq_some'] at ht'
        obtain ⟨cs', haux, rfl⟩ := ht'
        exact invOk_mkBucket _ _ (addList_inv cs p child hlist hchild cs' haux)

theorem addList_inv : ∀ (cs : List Node) (p : String) (child : Node),
    invList cs = true → child.invOk = true →
    ∀ cs', addList cs p child = some cs' → invList cs' = true
  | [], p, child => by
      intro _ _ cs' h
      simp [addList] at h
  | c :: rest, p, child => by
      intro hinv hchild cs' h
      simp only [invList, Bool.and_eq_true] at hinv
      simp only [addList] at h
      match hc : c.add_node p child with
      | some c' =>
          rw [hc] at h
          simp only [Option.some.injEq] at h
          subst h
          simp [invList, add_inv c p child hinv.1 hchild c' hc, hinv.2]
      | none =>
          rw [hc] at h
          simp only [Option.map_eq_some'] at h
          obtain ⟨rest', haux, rfl⟩ := h
          simp [invList, hinv.1, addList_inv rest p child hinv.2 hchild rest' haux]

end

mutual

theorem remove_inv : ∀ (t : Node) (name : String),
    t.invOk = true → ∀ t', t.remove_node name = some t' → t'.invOk = true
  | .server s, name => by
      intro _ t' ht'
      simp [Node.remove_node] at ht'
  | .bucket b cs, name => by
      intro hinv t' ht'
      obtain ⟨_, _, hlist⟩ := invOk_bucket_elim b cs hinv
      simp only [Node.remove_node] at ht'
      by_cases hany : cs.any (fun c => c.nodeName = name)
      · simp [hany] at ht'
        subst ht'
        exact invOk_mkBucket _ _ (invList_filter _ cs hlist)
      · simp only [hany, Bool.false_eq_true, if_false, Option.map_eq_some'] at ht'
        obtain ⟨cs', haux, rfl⟩ := ht'
        exact invOk_mkBucket _ _ (removeNodeList_inv cs name hlist cs' haux)

theorem removeNodeList_inv : ∀ (cs : List Node) (name : String),
    invList cs = true → ∀ cs', removeNodeList cs name = some cs' → invList cs' = true
  | [], name => by
      intro _ cs' h
      simp [removeNodeList] at h
  | c :: rest, name => by
      intro hinv cs' h
      simp only [invList, Bool.and_eq_true] at hinv
      simp only [removeNodeList] at h
      match hc : c.remove_node name with
      | some c' =>
          rw [hc] at h
          simp only [Option.some.injEq] at h
          subst h
          simp [invList, remove_inv c name hinv.1 c' hc, hinv.2]
      | none =>
          rw [hc] at h
          simp only [Option.map_eq_some'] at h
          obtain ⟨rest', haux, rfl⟩ := h
          simp [invList, hinv.1, removeNodeList_inv rest name hinv.2 rest' haux]

end

mutual

theorem putAt_inv : ∀ (t : Node) (srv : String) (a : Application),
    t.invOk = true → ∀ t', t.putAt srv a = some t' → t'.invOk = true
  | .server s, srv, a => by
      intro _ t' ht'
      simp only [Node.putAt] at ht'
      by_cases hn : s.name = srv
      · rw [if_pos hn, Option.map_eq_some'] at ht'
        obtain ⟨s', _, rfl⟩ := ht'
        simp [Node.invOk]
      · simp [hn] at ht'
  | .bucket b cs, srv, a => by
      intro hinv t' ht'
      obtain ⟨_, _, hlist⟩ := invOk_bucket_elim b cs hinv
      simp only [Node.putAt, Option.map_eq_some'] at ht'
      obtain ⟨cs', haux, rfl⟩ := ht'
      exact invOk_mkBucket _ _ (putAtList_inv cs srv a hlist cs' haux)

theorem putAtList_inv : ∀ (cs : List Node) (srv : String) (a : Application),
    invList cs = true → ∀ cs', putAtList cs srv a = some cs' → invList cs' = true
  | [], srv, a => by
      intro _ cs' h
      simp [putAtList] at h
  | c :: rest, srv, a => by
      intro hinv cs' h
      simp only [invList, Bool.and_eq_true] at hinv
      simp only [putAtList] at h
      match hc : c.putAt srv a with
      | some c' =>
          rw [hc] at h
          simp only [Option.some.injEq] at h
          subst h
          simp [invList, putAt_inv c srv a hinv.1 c' hc, hinv.2]
      | none =>
          rw [hc] at h
          simp only [Option.map_eq_some'] at h
          obtain ⟨rest', haux, rfl⟩ := h
          simp [invList, hinv.1, putAtList_inv rest srv a hinv.2 rest' haux]

end

/-- A mutation of the Node tree: `add_node`, `remove_node`, or a direct
`Server.put` on a named server. -/
inductive TreeOp where
  | add (parent : String) (child : Node)
  | rem (name : String)
  | putApp (server : String) (app : Application)

/-- The side condition of an operation: an added subtree must itself
satisfy the cache invariant. -/
def TreeOp.childInvOk : TreeOp → Bool
  | .add _ c => c.invOk
  | _ => true

/-- Apply one mutation; a failed mutation leaves the tree unchanged. -/
def applyOp (t : Node) : TreeOp → Node
  | .add p c => (t.add_node p c).getD t
  | .rem n => (t.remove_node n).getD t
  | .putApp srv a => (t.putAt srv a).getD t

/-- Apply a sequence of mutations. -/
def applyOps (t : Node) (ops : List TreeOp) : Node := ops.foldl applyOp t

theorem applyOp_inv (t : Node) (op : TreeOp) (ht : t.invOk = true)
    (hop : op.childInvOk = true) : (applyOp t op).invOk = true := by
  match op with
  | .add p c =>
      simp only [applyOp]
      match hres : t.add_node p c with
      | some t' => simpa using add_inv t p c ht hop t' hres
      | none => simpa using ht
  | .rem n =>
      simp only [applyOp]
      match hres : t.remove_node n with
      | some t' => simpa using remove_inv t n ht t' hres
      | none => simpa using ht
  | .putApp srv a =>
      simp only [applyOp]
      match hres : t.putAt srv a with
      | some t' => simpa using putAt_inv t srv a ht t' hres
      | none => simpa using ht

theorem applyOps_inv (ops : List TreeOp) : ∀ (t : Node), t.invOk = true →
    (∀ op ∈ ops, op.childInvOk = true) → (applyOps t ops).invOk = true := by
  induction ops with
  | nil => intro t ht _; simpa [applyOps] using ht
  | cons op rest ih =>
      intro t ht hops
      have h1 : (applyOp t op).invOk = true := applyOp_inv t op ht (hops op (by simp))
      have := ih (applyOp t op) h1 (fun o ho => hops o (by simp [ho]))
      simpa [applyOps] using this

mutual

theorem invOk_buckets : ∀ t : Node, t.invOk = true →
    ∀ p ∈ t.bucketsOf, p.1.free_capacity = capMaxOver p.2 ∧ p.1.valid_until = vuMaxOver p.2
  | .server s => by
      intro _ p hp
      simp [Node.bucketsOf] at hp
  | .bucket b cs => by
      intro hinv p hp
      obtain ⟨hfc, hvu, hlist⟩ := invOk_bucket_elim b cs hinv
      simp only [Node.bucketsOf, List.mem_cons] at hp
      rcases hp with rfl | hp
      · exact ⟨hfc, hvu⟩
      · exact invList_buckets cs hlist p hp

theorem invList_buckets : ∀ cs : List Node, invList cs = true →
    ∀ p ∈ bucketsList cs, p.1.free_capacity = capMaxOver p.2 ∧ p.1.valid_until = vuMaxOver p.2
  | [] => by
      intro _ p hp
      simp [bucketsList] at hp
  | c :: rest => by
      intro hinv p hp
      simp only [invList, Bool.and_eq_true] at hinv
      simp only [bucketsList, List.mem_append] at hp
      rcases hp with hp | hp
      · exact invOk_buckets c hinv.1 p hp
      · exact invList_buckets rest hinv.2 p hp

end

/-- C2: starting from a tree satisfying the cache invariant, after any
sequence of `add_node`, `remove_node` and `Server.put` operations every
bucket's stored free capacity equals the componentwise maximum of its
children's and its stored `valid_until` equals the maximum of its
children's (the recomputation propagating through all ancestors). -/
theorem C2_bucket_capacity (t : Node) (ops : List TreeOp)
    (ht : t.invOk = true) (hops : ∀ op ∈ ops, op.childInvOk = true) :
    ∀ p ∈ (applyOps t ops).bucketsOf,
      p.1.free_capacity = capMaxOver p.2 ∧ p.1.valid_until = vuMaxOver p.2 :=
  invOk_buckets (applyOps t ops) (applyOps_inv ops t ht hops)

/-- The two-bucket tree of `NodeTest.test_bucket_capacity`. -/
def treeC2 : Node := mkBucket { name := "top" } [mkBucket { name := "b" } []]

/-- A fresh server of the given capacity, valid until 500. -/
def srvC2 (n : String) (c : Vec) : Node :=
  .server { name := n, capacity := c, free_capacity := c, valid_until := 500 }

/-- The operation sequence of `NodeTest.test_bucket_capacity`, extended
with a direct `Server.put`. -/
def opsC2 : List TreeOp :=
  [.add "b" (srvC2 "n1" [10, 5]), .add "b" (srvC2 "n2" [5, 10]),
   .add "b" (srvC2 "n3" [3, 3]), .rem "n3",
   .putApp "n2" { name := "x", priority := 50, demand := [1, 2], affinity := "x" },
   .rem "n1"]

/-- Witness for C2 on the concrete scenario of
`NodeTest.test_bucket_capacity`. -/
theorem C2_bucket_capacity_witness :
    treeC2.invOk = true ∧
    ∃ p, ((applyOps treeC2 opsC2).bucketsOf).head? = some p ∧
      p.1.free_capacity = capMaxOver p.2 ∧ p.1.valid_until = vuMaxOver p.2 := by
  refine ⟨by decide, ?_⟩
  obtain ⟨p, hp⟩ : ∃ p, ((applyOps treeC2 opsC2).bucketsOf).head? = some p := ⟨_, rfl⟩
  have hmem : p ∈ (applyOps treeC2 opsC2).bucketsOf := by
    cases h : (applyOps treeC2 opsC2).bucketsOf with
    | nil => rw [h] at hp; simp at hp
    | cons q rest =>
        rw [h] at hp
        simp only [List.head?_cons, Option.some.injEq] at hp
        simp [hp]
  exact ⟨p, hp, C2_bucket_capacity treeC2 opsC2 (by decide) (by decide) p hmem⟩

/-- Place a list of apps in order through the strategy-driven `put`,
recording each app's accepting server (`none` when placement fails). -/
def placeSeq : Node → List Application → List (Option String) × Node
  | t, [] => ([], t)
  | t, a :: rest =>
      match t.put a with
      | some (t', srv) =>
          let r := placeSeq t' rest
          (some srv :: r.1, r.2)
      | none =>
          let r := placeSeq t rest
          (none :: r.1, r.2)

/-- A `[10, 10]` server for the placement-strategy scenario. -/
def srvC5 (n : String) : Node :=
  .server { name := n, capacity := [10, 10], free_capacity := [10, 10], valid_until := 500 }

/-- The two-level topology of `NodeTest.test_bucket_placement`:
top -> (a_bucket -> (a1_srv, a2_srv), b_bucket -> (b1_srv, b2_srv)). -/
def topC5 : Node :=
  mkBucket { name := "top" }
    [mkBucket { name := "a_bucket" } [srvC5 "a1_srv", srvC5 "a2_srv"],
     mkBucket { name := "b_bucket" } [srvC5 "b1_srv", srvC5 "b2_srv"]]

/-- An app of demand `[1, 1]` with the given affinity. -/
def appC5 (n : String) (aff : String) (s : ℕ) : Application :=
  { name := n, priority := 50, demand := [1, 1], affinity := aff, seq := s }

/-- The four same-affinity apps placed first. -/
def apps1C5 : List Application :=
  [appC5 "app1-0" "app1" 0, appC5 "app1-1" "app1" 1,
   appC5 "app1-2" "app1" 2, appC5 "app1-3" "app1" 3]

/-- The four apps of the second affinity placed after the strategy switch. -/
def apps2C5 : List Application :=
  [appC5 "app2-0" "app2" 4, appC5 "app2-1" "app2" 5,
   appC5 "app2-2" "app2" 6, appC5 "app2-3" "app2" 7]

/-- C5: on the two-level `[10, 10]` topology, four puts of one affinity
spread to a1, b1, a2, b2 in that order under the default Spread strategy;
after switching the left bucket's strategy for a second affinity to Pack,
four puts of that affinity land on a1, b1, a1, b2 in that order. -/
theorem C5_spread_pack :
    (placeSeq topC5 apps1C5).1 =
      [some "a1_srv", some "b1_srv", some "a2_srv", some "b2_srv"] ∧
    (placeSeq ((placeSeq topC5 apps1C5).2.set_affinity_strategy "a_bucket" "app2"
        Strategy.pack) apps2C5).1 =
      [some "a1_srv", some "b1_srv", some "a1_srv", some "b2_srv"] := by
  constructor <;> decide

/-! The Cell and one `schedule()` cycle, modelled from spec sections 4.6 to
4.9.  All clock reads go through the injected `now` parameter. -/

/-- Modelled from the spec: an allocation as owned by the Cell, keyed by
label (the merged global queue is computed per label). -/
structure CellAlloc where
  label : Option String
  reserved : Option Vec := none
  max_utilization : Option (ℤ × ℤ) := none
  deriving DecidableEq

/-- Modelled from the spec: the `Cell`: root node, application index (with
each app's authoritative state), allocations keyed by label, the identity
group registry and the next-event time. -/
structure Cell where
  root : Node
  apps : List Application := []
  allocations : List CellAlloc := [{ label := none }]
  identity_groups : List (String × IdentityGroup) := []
  next_event_at : WithTop ℤ := ⊤
  nextSeq : ℕ := 0

/-- Update the named app's record. -/
def updApp (apps : List Application) (name : String) (f : Application → Application) :
    List Application :=
  apps.map (fun a => if a.name = name then f a else a)

/-- Update the named identity group. -/
def updGroup (gs : List (String × IdentityGroup)) (g : String)
    (f : IdentityGroup → IdentityGroup) : List (String × IdentityGroup) :=
  gs.map (fun p => if p.1 = g then (p.1, f p.2) else p)

/-- Look up an identity group by name. -/
def lookupGroup (gs : List (String × IdentityGroup)) (g : String) : Option IdentityGroup :=
  (gs.find? (fun p => p.1 = g)).map Prod.snd

namespace Cell

/-- Add a node under the named parent bucket. -/
def add_node (c : Cell) (parent : String) (child : Node) : Cell :=
  { c with root := (c.root.add_node parent child).getD c.root }

/-- Remove the named node. -/
def remove_node (c : Cell) (name : String) : Cell :=
  { c with root := (c.root.remove_node name).getD c.root }

/-- Mark the named server's state. -/
def set_state (c : Cell) (srv : String) (st : NState) : Cell :=
  { c with root := c.root.setState srv st }

/-- Modelled from the spec: add an application to the allocation of the
given label (creating the allocation when absent); the app starts
unplaced and is stamped with the next insertion sequence number. -/
def add_app (c : Cell) (label : Option String) (a : Application) : Cell :=
  { c with
    apps := c.apps ++ [{ a with label := label, seq := c.nextSeq, server := none }],
    nextSeq := c.nextSeq + 1,
    allocations :=
      if c.allocations.any (fun al => al.label = label) then c.allocations
      else c.allocations ++ [{ label := label }] }

/-- Modelled from the spec: remove an application: its placement is freed,
its identity released to its group, its record dropped. -/
def remove_app (c : Cell) (name : String) : Cell :=
  match c.apps.find? (fun a => a.name = name) with
  | none => c
  | some a =>
      let root' := match a.server with
        | some srv => (c.root.removeApp srv a.name).getD c.root
        | none => c.root
      let groups' := match a.identity_group, a.identity with
        | some g, some i => updGroup c.identity_groups g (fun gr => gr.release i)
        | _, _ => c.identity_groups
      { c with root := root', identity_groups := groups',
               apps := c.apps.filter (fun b => ¬ b.name = name) }

/-- Modelled from the spec: `configure_identity_group(name, n)` creates the
group or adjusts the existing one. -/
def configure_identity_group (c : Cell) (g : String) (n : ℕ) : Cell :=
  if c.identity_groups.any (fun p => p.1 = g) then
    { c with identity_groups := updGroup c.identity_groups g (fun gr => gr.adjust n) }
  else
    { c with identity_groups := c.identity_groups ++ [(g, IdentityGroup.init n)] }

/-- Modelled from the spec: `acquire_identity()` on an app whose identity
is none asks its group for an id; on success the id is stored. -/
def acquire_identity (c : Cell) (appName : String) : Cell :=
  match c.apps.find? (fun a => a.name = appName) with
  | none => c
  | some a =>
      match a.identity_group, a.identity with
      | some g, none =>
          match lookupGroup c.identity_groups g with
          | some gr =>
              match gr.acquire with
              | (some i, gr') =>
                  { c with
                    apps := updApp c.apps appName (fun x => { x with identity := some i }),
                    identity_groups := updGroup c.identity_groups g (fun _ => gr') }
              | (none, _) => c
          | none => c
      | _, _ => c

end Cell

/-- Whether the app's host is unavailable and its retention has expired at
time `now` (spec 4.8; retention 0 expires immediately). -/
def retentionFreed (root : Node) (now : ℤ) (a : Application) : Bool :=
  match a.server with
  | none => false
  | some srv =>
      match root.findServer srv with
      | some s =>
          if s.state = NState.up then false
          else decide (a.placement_expiry.getD (now + a.data_retention_timeout) ≤ now)
      | none => decide (a.placement_expiry.getD (now + a.data_retention_timeout) ≤ now)

/-- Modelled from the spec (4.8): the retention step for one app record:
on a healthy host clear the expiry; on a down or removed host set
`placement_expiry = now + retention` when unset, keep the app bound to the
old name until expiry, and free it (setting `evicted` for schedule-once
apps) once `now` reaches the expiry. -/
def retentionUpdate (root : Node) (now : ℤ) (a : Application) : Application :=
  match a.server with
  | none => a
  | some srv =>
      match root.findServer srv with
      | some s =>
          if s.state = NState.up then { a with placement_expiry := none }
          else
            let expiry := a.placement_expiry.getD (now + a.data_retention_timeout)
            if now < expiry then { a with placement_expiry := some expiry }
            else { a with server := none, placement_expiry := none,
                          evicted := a.evicted || a.schedule_once }
      | none =>
          let expiry := a.placement_expiry.getD (now + a.data_retention_timeout)
          if now < expiry then { a with placement_expiry := some expiry }
          else { a with server := none, placement_expiry := none,
                        evicted := a.evicted || a.schedule_once }

/-- Remove the capacity bookkeeping of every app freed by retention (the
freeing decision reads the pristine pre-cycle tree `root0`). -/
def retentionTree (root0 : Node) (now : ℤ) : Node → List Application → Node
  | t, [] => t
  | t, a :: rest =>
      retentionTree root0 now
        (if retentionFreed root0 now a then
          match a.server with
          | some srv => (t.removeApp srv a.name).getD t
          | none => t
        else t) rest

/-- Modelled from the spec (4.6 step 1): the global queue: each label's
allocation stream is computed against the cell's total capacity and all
streams are merged on `(-priority, utilization, sequence_no)`. -/
def globalQueue (allocs : List CellAlloc) (apps : List Application) (pa : Vec) :
    List QEntry :=
  sortBy entryLE (allocs.foldr (fun al acc =>
    (Allocation.mk al.reserved al.max_utilization
        (apps.filter (fun a => a.label = al.label)) []).utilization_queue pa ++ acc) [])

/-- The mutable state threaded through one scheduling cycle. -/
structure SchedState where
  root : Node
  apps : List Application
  groups : List (String × IdentityGroup)

/-- Modelled from the spec (4.9): the identity step for the app at its
queue position: an app whose held id exceeds the shrunk group count is
removed from placement; an app without an identity acquires one, and
remains unplaceable when the pool is exhausted.  Returns the state and
whether the app may be placed. -/
def identityStep (st : SchedState) (a : Application) : SchedState × Bool :=
  match a.identity_group with
  | none => (st, true)
  | some g =>
      match lookupGroup st.groups g with
      | none => (st, true)
      | some gr =>
          match a.identity with
          | some i =>
              if i < gr.count then (st, true)
              else
                let root' := match a.server with
                  | some srv => (st.root.removeApp srv a.name).getD st.root
                  | none => st.root
                (⟨root',
                  updApp st.apps a.name (fun x => { x with identity := none, server := none }),
                  updGroup st.groups g (fun x => x.release i)⟩, false)
          | none =>
              match gr.acquire with
              | (some i, gr') =>
                  (⟨st.root,
                    updApp st.apps a.name (fun x => { x with identity := some i }),
                    updGroup st.groups g (fun _ => gr')⟩, true)
              | (none, _) => (st, false)

/-- Modelled from the spec (4.7): the eviction walk: from the tail of the
global queue, tentatively remove each app of strictly lower priority that
occupies capacity on an up server satisfying the pending app's traits and
label, re-attempting `put` after each removal; returns the placement (when
one was found), the tree with the accumulated removals, and the removed
apps with their prior hosts in removal order. -/
def evictWalk (a : Application) (apps : List Application) :
    Node → List QEntry → List (String × String) →
    Option (Node × String) × Node × List (String × String)
  | root, [], removed => (none, root, removed)
  | root, b :: tailRest, removed =>
      match apps.find? (fun x => x.name = b.app.name) with
      | none => evictWalk a apps root tailRest removed
      | some bApp =>
          match bApp.server with
          | none => evictWalk a apps root tailRest removed
          | some srv =>
              if bApp.priority < a.priority then
                match root.findServer srv with
                | some sdata =>
                    if sdata.state = NState.up ∧
                        (a.traitDemand &&& sdata.traits = a.traitDemand) ∧
                        sdata.label = a.label then
                      match root.removeApp srv bApp.name with
                      | some root1 =>
                          match root1.put a with
                          | some (root2, aSrv) =>
                              (some (root2, aSrv), root2, removed ++ [(bApp.name, srv)])
                          | none =>
                              evictWalk a apps root1 tailRest (removed ++ [(bApp.name, srv)])
                      | none => evictWalk a apps root tailRest removed
                    else evictWalk a apps root tailRest removed
                | none => evictWalk a apps root tailRest removed
              else evictWalk a apps root tailRest removed

/-- Modelled from the spec (4.7): the snapshot rollback after the walk:
every tentatively removed app is restored exactly to its prior host when
it still fits there; otherwise it becomes unplaced (to be re-attempted at
its own queue position), with the `evicted` flag set for schedule-once
apps. -/
def rollback : SchedState → List (String × String) → SchedState
  | st, [] => st
  | st, (appName, srv) :: rest =>
      match st.apps.find? (fun x => x.name = appName) with
      | none => rollback st rest
      | some bApp =>
          match st.root.putAt srv bApp with
          | some root' => rollback ⟨root', st.apps, st.groups⟩ rest
          | none =>
              rollback
                ⟨st.root,
                 updApp st.apps appName (fun x =>
                   { x with
                       server := none,
                       evicted := x.evicted || x.schedule_once }),
                 st.groups⟩ rest

/-- Modelled from the spec (4.7): eviction for one pending app: the walk
from the queue tail, then placement commit on success, then the rollback
pass over the accumulated removals. -/
def evictAndPlace (queue : List QEntry) (st : SchedState) (a : Application) : SchedState :=
  match evictWalk a st.apps st.root queue.reverse [] with
  | (some (root2, aSrv), _, removed) =>
      rollback
        ⟨root2, updApp st.apps a.name (fun x => { x with server := some aSrv }), st.groups⟩
        removed
  | (none, root1, removed) => rollback ⟨root1, st.apps, st.groups⟩ removed

/-- Modelled from the spec (4.6 step 2): processing of one queue entry:
identity bookkeeping first; evicted schedule-once apps and already placed
apps are left untouched; otherwise `put`, falling back to the eviction
loop. -/
def processEntry (queue : List QEntry) (st : SchedState) (e : QEntry) : SchedState :=
  match st.apps.find? (fun a => a.name = e.app.name) with
  | none => st
  | some a =>
      match identityStep st a with
      | (st1, false) => st1
      | (st1, true) =>
          match st1.apps.find? (fun x => x.name = a.name) with
          | none => st1
          | some a1 =>
              if a1.evicted && a1.schedule_once then st1
              else if a1.server.isSome then st1
              else
                match st1.root.put a1 with
                | some (root', srv) =>
                    { st1 with
                        root := root',
                        apps := updApp st1.apps a1.name
                          (fun x => { x with server := some srv }) }
                | none => evictAndPlace queue st1 a1

/-- Process the whole queue in order. -/
def processQueue (queue : List QEntry) : SchedState → List QEntry → SchedState
  | st, [] => st
  | st, e :: rest => processQueue queue (processEntry queue st e) rest

/-- Modelled from the spec (4.8): `next_event_at` is the minimum of all
active placement expiries, infinity when none. -/
def nextEvent (apps : List Application) : WithTop ℤ :=
  apps.foldr (fun a acc =>
    match a.placement_expiry with
    | some e => min (e : WithTop ℤ) acc
    | none => acc) ⊤

/-- Modelled from the spec (4.6): one `schedule()` cycle at the injected
time `now`: the retention pass, then the global queue computed against the
cell's total capacity, then queue processing with placement, identity and
eviction, and finally the `next_event_at` recomputation. -/
def Cell.schedule (c : Cell) (now : ℤ) : Cell :=
  let apps1 := c.apps.map (retentionUpdate c.root now)
  let root1 := retentionTree c.root now c.root c.apps
  let queue := globalQueue c.allocations apps1 root1.sizeVec
  let st := processQueue queue ⟨root1, apps1, c.identity_groups⟩ queue
  { c with
      root := st.root,
      apps := st.apps,
      identity_groups := st.groups,
      next_event_at := nextEvent st.apps }

/-- The placements of a cell: each app's name with its server. -/
def Cell.placements (c : Cell) : List (String × Option String) :=
  c.apps.map (fun a => (a.name, a.server))

/-! Concrete scenario material shared by the scheduling claims. -/

/-- A `[10, 10]` server with an optional label. -/
def srv1010 (n : String) (lab : Option String) : Node :=
  .server { name := n, capacity := [10, 10], free_capacity := [10, 10], label := lab,
            valid_until := 500 }

/-- The four-server two-rack cell topology used by the Cell tests:
top(cell) -> (left(rack) -> (a, b), right(rack) -> (y, z)). -/
def rootRacks : Node :=
  mkBucket { name := "top", level := "cell" }
    [mkBucket { name := "left", level := "rack" } [srv1010 "a" none, srv1010 "b" none],
     mkBucket { name := "right", level := "rack" } [srv1010 "y" none, srv1010 "z" none]]

/-- An app of the shared affinity `app`. -/
def appP (n : String) (p : ℕ) (d : Vec) : Application :=
  { name := n, priority := p, demand := d, affinity := "app" }

/-- `CellTest.test_simple` after the first cycle: apps of priority 4..1
with demands `[1,1]`..`[4,4]`. -/
def cellC3a : Cell :=
  (((({ root := rootRacks } : Cell).add_app none (appP "app1" 4 [1, 1])).add_app none
      (appP "app2" 3 [2, 2])
    |>.add_app none (appP "app3" 2 [3, 3])
    |>.add_app none (appP "app4" 1 [4, 4])).schedule 100)

/-- The same cell after adding the priority-50 `[10,10]` app and running a
second cycle. -/
def cellC3b : Cell :=
  (cellC3a.add_app none (appP "prio50" 50 [10, 10])).schedule 100

/-- The eviction walk only ever removes apps of strictly lower priority
than the pending app (given the accumulator already satisfies this). -/
theorem evictWalk_lower (a : Application) (apps : List Application) :
    ∀ (queue : List QEntry) (root : Node) (removed : List (String × String)),
      (∀ p ∈ removed, ∃ b ∈ apps, b.name = p.1 ∧ b.priority < a.priority) →
      ∀ p ∈ (evictWalk a apps root queue removed).2.2,
        ∃ b ∈ apps, b.name = p.1 ∧ b.priority < a.priority := by
  intro queue
  induction queue with
  | nil =>
      intro root removed hacc p hp
      simp only [evictWalk] at hp
      exact hacc p hp
  | cons e rest ih =>
      intro root removed hacc p hp
      simp only [evictWalk] at hp
      split at hp
      · exact ih root removed hacc p hp
      · rename_i bApp hfind
        have hbmem : bApp ∈ apps := List.mem_of_find?_eq_some hfind
        have hbname : bApp.name = bApp.name := rfl
        split at hp
        · exact ih root removed hacc p hp
        · rename_i srv hsrv
          split at hp
          · rename_i hlt
            split at hp
            · rename_i sdata hsdata
              split at hp
              · rename_i hfilter
                split at hp
                · rename_i root1 hrem
                  have hacc' : ∀ q ∈ removed ++ [(bApp.name, srv)],
                      ∃ b ∈ apps, b.name = q.1 ∧ b.priority < a.priority := by
                    intro q hq
                    rcases List.mem_append.mp hq with hq | hq
                    · exact hacc q hq
                    · simp only [List.mem_singleton] at hq
                      subst hq
                      exact ⟨bApp, hbmem, rfl, hlt⟩
                  split at hp
                  · rename_i pl hput
                    exact hacc' p hp
                  · exact ih root1 (removed ++ [(bApp.name, srv)]) hacc' p hp
                · exact ih root removed hacc p hp
              · exact ih root removed hacc p hp
            · exact ih root removed hacc p hp
          · exact ih root removed hacc p hp

/-- C3: the eviction loop removes only apps of strictly lower priority
than the pending app (each then re-attempted at its own queue position);
in the four-server scenario of `CellTest.test_simple`, the first cycle
places app1..app4 on a, y, b, z and after adding the priority-50
`[10,10]` app the second cycle places it on z with the evicted app4
re-placed on a. -/
theorem C3_eviction_priority :
    (∀ (a : Application) (apps : List Application) (root : Node) (queue : List QEntry)
        (p : String × String),
        p ∈ (evictWalk a apps root queue []).2.2 →
        ∃ b ∈ apps, b.name = p.1 ∧ b.priority < a.priority) ∧
    cellC3a.placements =
      [("app1", some "a"), ("app2", some "y"), ("app3", some "b"), ("app4", some "z")] ∧
    cellC3b.placements =
      [("app1", some "a"), ("app2", some "y"), ("app3", some "b"), ("app4", some "a"),
       ("prio50", some "z")] := by
  refine ⟨?_, by decide, by decide⟩
  intro a apps root queue p hp
  exact evictWalk_lower a apps queue root [] (by simp) p hp

/-- Witness for C3: a one-candidate eviction walk (a priority-1 app placed
on a one-server tree, a pending priority-50 app) removes exactly that
lower-priority app. -/
theorem C3_eviction_priority_witness :
    (("b0", "s0") ∈ (evictWalk (appP "A" 50 [10, 10])
        [{ appP "b0" 1 [1, 1] with server := some "s0" }]
        (mkBucket { name := "top", level := "cell" }
          [.server { name := "s0", capacity := [10, 10], free_capacity := [9, 9],
                     valid_until := 500,
                     apps := [⟨"b0", [1, 1], "app"⟩] }])
        [⟨1, .fin 1 1, 0, appP "b0" 1 [1, 1]⟩] []).2.2) ∧
    ∃ b ∈ [{ appP "b0" 1 [1, 1] with server := some "s0" }],
      b.name = "b0" ∧ b.priority < (appP "A" 50 [10, 10]).priority := by
  refine ⟨by decide, ?_⟩
  exact C3_eviction_priority.1 (appP "A" 50 [10, 10])
    [{ appP "b0" 1 [1, 1] with server := some "s0" }]
    (mkBucket { name := "top", level := "cell" }
      [.server { name := "s0", capacity := [10, 10], free_capacity := [9, 9],
                 valid_until := 500,
                 apps := [⟨"b0", [1, 1], "app"⟩] }])
    [⟨1, .fin 1 1, 0, appP "b0" 1 [1, 1]⟩] ("b0", "s0") (by decide)

/-! Affinity limits (claim C6). -/

mutual

/-- Whether the subtree contains the named server. -/
def Node.containsSrv : Node → String → Bool
  | .server s, v => s.name = v
  | .bucket _ cs, v => containsSrvList cs v

/-- Whether any subtree of the list contains the named server. -/
def containsSrvList : List Node → String → Bool
  | [], _ => false
  | c :: rest, v => c.containsSrv v || containsSrvList rest v

end

/-- Whether the node's affinity counter respects the app's cap for the
node's level (trivially true when the app declares no cap there). -/
def capRespectedAt (n : Node) (a : Application) : Bool :=
  match a.affinity_limits.find? (fun p => p.1 = n.levelOf) with
  | some p => decide (n.affinity_counter a.affinity ≤ p.2)
  | none => true

mutual

/-- Whether every node on the ancestor chain from this node down to the
named server respects the app's per-level affinity caps. -/
def Node.chainRespects : Node → String → Application → Bool
  | .server s, v, a => if s.name = v then capRespectedAt (.server s) a else true
  | .bucket b cs, v, a =>
      if containsSrvList cs v then
        capRespectedAt (.bucket b cs) a && chainList cs v a
      else true

/-- The chain check over a list of subtrees. -/
def chainList : List Node → String → Application → Bool
  | [], _, _ => true
  | c :: rest, v, a => c.chainRespects v a && chainList rest v a

end

/-- The affinity-limit scenario of `CellTest.test_affinity_limits`: four
same-affinity apps with limits server 1, rack 2, cell 3 on the two-rack
cell. -/
def cellC6 : Cell :=
  ((({ root := rootRacks } : Cell).add_app none
        { appP "app-0" 50 [1, 1] with affinity_limits := [("server", 1), ("rack", 2), ("cell", 3)] }
    |>.add_app none
        { appP "app-1" 50 [1, 1] with affinity_limits := [("server", 1), ("rack", 2), ("cell", 3)] }
    |>.add_app none
        { appP "app-2" 50 [1, 1] with affinity_limits := [("server", 1), ("rack", 2), ("cell", 3)] }
    |>.add_app none
        { appP "app-3" 50 [1, 1] with affinity_limits := [("server", 1), ("rack", 2), ("cell", 3)] })
    |>.schedule 100)

/-- C6: placement into a node's subtree is rejected whenever the app caps
the node's level and the node's affinity counter has already reached the
cap; and in the concrete two-rack scenario with limits server 1, rack 2,
cell 3 exactly three of the four apps are placed (the fourth pending) and
every placed app's ancestor chain respects all its caps. -/
theorem C6_affinity_limits :
    (∀ (n : Node) (a : Application) (p : String × ℕ),
        a.affinity_limits.find? (fun q => q.1 = n.levelOf) = some p →
        p.2 ≤ n.affinity_counter a.affinity →
        n.put a = none) ∧
    cellC6.placements =
      [("app-0", some "a"), ("app-1", some "y"), ("app-2", some "b"), ("app-3", none)] ∧
    (cellC6.apps.all (fun a =>
      match a.server with
      | some v => cellC6.root.chainRespects v a
      | none => true)) = true := by
  refine ⟨?_, by decide, by decide⟩
  intro n a p hfind hcap
  have hlim : limitOk n a = false := by
    simp only [limitOk, hfind, decide_eq_false_iff_not, not_lt]
    exact hcap
  match n with
  | .server s =>
      have : s.tryPut a = none := by
        simp only [ServerData.tryPut]
        rw [if_neg]
        intro hcond
        rw [hcond.2.2.2.1] at hlim
        exact absurd hlim (by simp)
      simp [Node.put, this]
  | .bucket b cs =>
      simp only [Node.put]
      rw [if_neg]
      intro hcond
      rw [hcond.1] at hlim
      exact absurd hlim (by simp)

/-- A server already holding one app of the shared affinity. -/
def srvC6w : Node :=
  .server { name := "s0", capacity := [10, 10], free_capacity := [9, 9],
            valid_until := 500, apps := [⟨"w", [1, 1], "app"⟩] }

/-- An app capping its affinity at one per server. -/
def appC6w : Application := { appP "x" 50 [1, 1] with affinity_limits := [("server", 1)] }

/-- Witness for C6: a single saturated server (one app of the affinity
already placed, cap `server: 1`) rejects the put. -/
theorem C6_affinity_limits_witness :
    appC6w.affinity_limits.find? (fun q => q.1 = srvC6w.levelOf) = some ("server", 1) ∧
    srvC6w.put appC6w = none := by
  refine ⟨by decide, ?_⟩
  exact C6_affinity_limits.1 srvC6w appC6w ("server", 1) (by decide) (by decide)

/-! Identity-group sharing (claim C10). -/

/-- The available-id set an app observes through its identity-group
reference (the registry lookup by the group name stored on the app). -/
def memberView (c : Cell) (appName : String) : Option (Finset ℕ) :=
  match c.apps.find? (fun a => a.name = appName) with
  | some a =>
      match a.identity_group with
      | some g => (lookupGroup c.identity_groups g).map (fun gr => gr.available)
      | none => none
  | none => none

/-- A member of the identity group `ident1`. -/
def appC10 (i : ℕ) : Application :=
  { name := "app-" ++ toString i, priority := 50, demand := [1, 1], affinity := "app",
    identity_group := some "ident1" }

/-- The identity scenario of `CellTest.test_identity` (scaled to four
servers): group `ident1` of size 3, four member apps. -/
def cellC10 : Cell :=
  ((({ root := mkBucket { name := "top", level := "cell" }
        [srv1010 "s0" none, srv1010 "s1" none, srv1010 "s2" none, srv1010 "s3" none] } :
      Cell).configure_identity_group "ident1" 3)
    |>.add_app none (appC10 0) |>.add_app none (appC10 1)
    |>.add_app none (appC10 2) |>.add_app none (appC10 3))

/-- The scenario after one explicit `acquire_identity` by the first
member. -/
def cellC10a : Cell := cellC10.acquire_identity "app-0"

/-- The scenario after the following `schedule()`. -/
def cellC10b : Cell := cellC10a.schedule 100

/-- C10: apps naming the same identity group observe one shared pool
(the registry entry): their member views are always equal; concretely,
after one member's acquire on the size-3 group every member sees
available `{1, 2}`, and at `schedule()` identities are handed out in
increasing order starting from 0 along the queue. -/
theorem C10_identity_sharing :
    (∀ (c : Cell) (n1 n2 : String) (rec1 rec2 : Application),
        c.apps.find? (fun a => a.name = n1) = some rec1 →
        c.apps.find? (fun a => a.name = n2) = some rec2 →
        rec1.identity_group = rec2.identity_group →
        memberView c n1 = memberView c n2) ∧
    memberView cellC10a "app-0" = some {1, 2} ∧
    memberView cellC10a "app-1" = some {1, 2} ∧
    cellC10b.apps.map (fun a => (a.name, a.identity, a.server)) =
      [("app-0", some 0, some "s0"), ("app-1", some 1, some "s1"),
       ("app-2", some 2, some "s2"), ("app-3", none, none)] := by
  refine ⟨?_, by decide, by decide, by decide⟩
  intro c n1 n2 rec1 rec2 h1 h2 hg
  simp only [memberView, h1, h2, hg]

/-- Witness for C10: the sharing law applied to the two concrete members
after the explicit acquire. -/
theorem C10_identity_sharing_witness :
    cellC10a.apps.find? (fun a => a.name = "app-0") = some
      { appC10 0 with identity := some 0, seq := 0 } ∧
    memberView cellC10a "app-0" = memberView cellC10a "app-1" := by
  refine ⟨by decide, ?_⟩
  exact C10_identity_sharing.1 cellC10a "app-0" "app-1"
    { appC10 0 with identity := some 0, seq := 0 } { appC10 1 with seq := 1 }
    (by decide) (by decide) (by decide)

/-! Data retention (claim C4): preservation lemmas. -/

/-- The state of the named server as seen from a tree. -/
def stateView (t : Node) (v : String) : Option NState :=
  (t.findServer v).map (fun sd => sd.state)

/-- The state of the named server as seen from a list of subtrees. -/
def stateViewList (cs : List Node) (v : String) : Option NState :=
  (findServerList cs v).map (fun sd => sd.state)

theorem stateView_bucket (b : BucketData) (cs : List Node) (v : String) :
    stateView (.bucket b cs) v = stateViewList cs v := by
  simp [stateView, stateViewList, Node.findServer]

theorem stateView_mkBucket (b : BucketData) (cs : List Node) (v : String) :
    stateView (mkBucket b cs) v = stateViewList cs v := by
  simp [mkBucket, stateView, stateViewList, Node.findServer]

theorem stateViewList_cons (c : Node) (rest : List Node) (v : String) :
    stateViewList (c :: rest) v =
      match c.findServer v with
      | some sd => some sd.state
      | none => stateViewList rest v := by
  simp only [stateViewList, findServerList]
  match h : c.findServer v with
  | some sd => simp [h]
  | none => simp [h]

theorem tryPut_fields (s : ServerData) (a : Application) (s' : ServerData)
    (h : s.tryPut a = some s') : s'.name = s.name ∧ s'.state = s.state := by
  simp only [ServerData.tryPut] at h
  split at h
  · simp only [Option.some.injEq] at h
    subst h
    exact ⟨rfl, rfl⟩
  · simp at h

mutual

theorem put_stateView : ∀ (t : Node) (a : Application) (r : Node × String),
    t.put a = some r → ∀ v, stateView r.1 v = stateView t v
  | .server s, a, r => by
      intro h v
      simp only [Node.put, Option.map_eq_some'] at h
      obtain ⟨s', hs', hr⟩ := h
      obtain ⟨hname, hstate⟩ := tryPut_fields s a s' hs'
      subst hr
      simp only [stateView, Node.findServer, hname]
      by_cases hv : s.name = v <;> simp [hv, hstate]
  | .bucket b cs, a, r => by
      intro h v
      simp only [Node.put] at h
      split at h
      · split at h
        · rename_i cs' j srv hres
          simp only [Option.some.injEq] at h
          subst h
          rw [stateView_mkBucket, stateView_bucket]
          exact putRange_stateView cs _ _ _ a (cs', j, srv) hres v
        · split at h
          · rename_i cs' j srv hres2
            simp only [Option.some.injEq] at h
            subst h
            rw [stateView_mkBucket, stateView_bucket]
            exact putRange_stateView cs _ _ _ a (cs', j, srv) hres2 v
          · simp at h
      · simp at h

theorem putRange_stateView : ∀ (cs : List Node) (pos lo hi : ℕ) (a : Application)
    (res : List Node × ℕ × String),
    putRange cs pos lo hi a = some res → ∀ v, stateViewList res.1 v = stateViewList cs v
  | [], pos, lo, hi, a, res => by
      intro h v
      simp [putRange] at h
  | c :: rest, pos, lo, hi, a, res => by
      intro h v
      simp only [putRange] at h
      split at h
      · split at h
        · rename_i c' srv hput
          simp only [Option.some.injEq] at h
          subst h
          rw [stateViewList_cons, stateViewList_cons]
          have hc := put_stateView c a (c', srv) hput v
          simp only [stateView] at hc
          match hc' : c'.findServer v with
          | some sd =>
              rw [hc'] at hc
              match hc2 : c.findServer v with
              | some sd2 =>
                  rw [hc2] at hc
                  simp at hc
                  simp [hc]
              | none => rw [hc2] at hc; simp at hc
          | none =>
              rw [hc'] at hc
              match hc2 : c.findServer v with
              | some sd2 => rw [hc2] at hc; simp at hc
              | none => simp
        · rw [Option.map_eq_some'] at h
          obtain ⟨res', hres', hr⟩ := h
          subst hr
          rw [stateViewList_cons, stateViewList_cons]
          match hc2 : c.findServer v with
          | some sd2 => simp
          | none => exact putRange_stateView rest _ _ _ a res' hres' v
      · rw [Option.map_eq_some'] at h
        obtain ⟨res', hres', hr⟩ := h
        subst hr
        rw [stateViewList_cons, stateViewList_cons]
        match hc2 : c.findServer v with
        | some sd2 => simp
        | none => exact putRange_stateView rest _ _ _ a res' hres' v

end

mutual

theorem removeApp_stateView : ∀ (t : Node) (srv appName : String) (t' : Node),
    t.removeApp srv appName = some t' → ∀ v, stateView t' v = stateView t v
  | .server s, srv, appName, t' => by
      intro h v
      simp only [Node.removeApp] at h
      split at h
      · split at h
        · rename_i p hfind
          simp only [Option.some.injEq] at h
          subst h
          simp only [stateView, Node.findServer]
          by_cases hv : s.name = v <;> simp [hv]
        · simp at h
      · simp at h
  | .bucket b cs, srv, appName, t' => by
      intro h v
      simp only [Node.removeApp, Option.map_eq_some'] at h
      obtain ⟨cs', hcs', hr⟩ := h
      subst hr
      rw [stateView_mkBucket, stateView_bucket]
      exact removeAppList_stateView cs srv appName cs' hcs' v

theorem removeAppList_stateView : ∀ (cs : List Node) (srv appName : String)
    (cs' : List Node),
    removeAppList cs srv appName = some cs' → ∀ v, stateViewList cs' v = stateViewList cs v
  | [], srv, appName, cs' => by
      intro h v
      simp [removeAppList] at h
  | c :: rest, srv, appName, cs' => by
      intro h v
      simp only [removeAppList] at h
      split at h
      · rename_i c' hc
        simp only [Option.some.injEq] at h
        subst h
        rw [stateViewList_cons, stateViewList_cons]
        have hc' := removeApp_stateView c srv appName c' hc v
        simp only [stateView] at hc'
        match h1 : c'.findServer v with
        | some sd =>
            rw [h1] at hc'
            match h2 : c.findServer v with
            | some sd2 => rw [h2] at hc'; simp at hc'; simp [hc']
            | none => rw [h2] at hc'; simp at hc'
        | none =>
            rw [h1] at hc'
            match h2 : c.findServer v with
            | some sd2 => rw [h2] at hc'; simp at hc'
            | none => simp
      · rw [Option.map_eq_some'] at h
        obtain ⟨rest', hrest', hr⟩ := h
        subst hr
        rw [stateViewList_cons, stateViewList_cons]
        match h2 : c.findServer v with
        | some sd2 => simp
        | none => exact removeAppList_stateView rest srv appName rest' hrest' v

end

mutual

theorem putAt_stateView : ∀ (t : Node) (srv : String) (a : Application) (t' : Node),
    t.putAt srv a = some t' → ∀ v, stateView t' v = stateView t v
  | .server s, srv, a, t' => by
      intro h v
      simp only [Node.putAt] at h
      split at h
      · rw [Option.map_eq_some'] at h
        obtain ⟨s', hs', hr⟩ := h
        obtain ⟨hname, hstate⟩ := tryPut_fields s a s' hs'
        subst hr
        simp only [stateView, Node.findServer, hname]
        by_cases hv : s.name = v <;> simp [hv, hstate]
      · simp at h
  | .bucket b cs, srv, a, t' => by
      intro h v
      simp only [Node.putAt, Option.map_eq_some'] at h
      obtain ⟨cs', hcs', hr⟩ := h
      subst hr
      rw [stateView_mkBucket, stateView_bucket]
      exact putAtList_stateView cs srv a cs' hcs' v

theorem putAtList_stateView : ∀ (cs : List Node) (srv : String) (a : Application)
    (cs' : List Node),
    putAtList cs srv a = some cs' → ∀ v, stateViewList cs' v = stateViewList cs v
  | [], srv, a, cs' => by
      intro h v
      simp [putAtList] at h
  | c :: rest, srv, a, cs' => by
      intro h v
      simp only [putAtList] at h
      split at h
      · rename_i c' hc
        simp only [Option.some.injEq] at h
        subst h
        rw [stateViewList_cons, stateViewList_cons]
        have hc' := putAt_stateView c srv a c' hc v
        simp only [stateView] at hc'
        match h1 : c'.findServer v with
        | some sd =>
            rw [h1] at hc'
            match h2 : c.findServer v with
            | some sd2 => rw [h2] at hc'; simp at hc'; simp [hc']
            | none => rw [h2] at hc'; simp at hc'
        | none =>
            rw [h1] at hc'
            match h2 : c.findServer v with
            | some sd2 => rw [h2] at hc'; simp at hc'
            | none => simp
      · rw [Option.map_eq_some'] at h
        obtain ⟨rest', hrest', hr⟩ := h
        subst hr
        rw [stateViewList_cons, stateViewList_cons]
        match h2 : c.findServer v with
        | some sd2 => simp
        | none => exact putAtList_stateView rest srv a rest' hrest' v

end

/-- The retention invariant on app records: every record named `N` is
bound to server `srv`, belongs to no identity group and carries the
placement expiry `e`. -/
def NameInv (N srv : String) (e : ℤ) (apps : List Application) : Prop :=
  ∀ rec ∈ apps, rec.name = N →
    rec.server = some srv ∧ rec.identity_group = none ∧ rec.placement_expiry = some e

theorem updApp_keep {N srv : String} {e : ℤ} (apps : List Application) (m : String)
    (f : Application → Application) (hf : ∀ x, (f x).name = x.name) (hm : m ≠ N)
    (h : NameInv N srv e apps) : NameInv N srv e (updApp apps m f) := by
  intro rec hrec hname
  simp only [updApp, List.mem_map] at hrec
  obtain ⟨x, hx, hrx⟩ := hrec
  by_cases hxm : x.name = m
  · rw [if_pos hxm] at hrx
    subst hrx
    rw [hf x, hxm] at hname
    exact absurd hname hm
  · rw [if_neg hxm] at hrx
    subst hrx
    exact h x hx hname

theorem updApp_exists {N : String} (apps : List Application) (m : String)
    (f : Application → Application) (hf : ∀ x, (f x).name = x.name)
    (h : ∃ rec ∈ apps, rec.name = N) : ∃ rec ∈ updApp apps m f, rec.name = N := by
  obtain ⟨rec, hmem, hname⟩ := h
  by_cases hrm : rec.name = m
  · refine ⟨f rec, ?_, by rw [hf rec, hname]⟩
    simp only [updApp, List.mem_map]
    exact ⟨rec, hmem, by rw [if_pos hrm]⟩
  · refine ⟨rec, ?_, hname⟩
    simp only [updApp, List.mem_map]
    exact ⟨rec, hmem, by rw [if_neg hrm]⟩

/-- The whole invariant threaded through queue processing: the records
named `N` are untouched and the server `srv` keeps its non-up state. -/
def KeepInv (N srv : String) (e : ℤ) (st0 : NState) (st : SchedState) : Prop :=
  NameInv N srv e st.apps ∧ stateView st.root srv = some st0 ∧
    ∃ rec ∈ st.apps, rec.name = N

theorem removeApp_getD_stateView (t : Node) (v n w : String) :
    stateView ((t.removeApp v n).getD t) w = stateView t w := by
  match h : t.removeApp v n with
  | some t' => simpa [h] using removeApp_stateView t v n t' h w
  | none => simp [h]

theorem identityStep_keep {N srv : String} {e : ℤ} {st0 : NState}
    (st : SchedState) (a : Application)
    (hinv : KeepInv N srv e st0 st) (ha : a ∈ st.apps) :
    KeepInv N srv e st0 (identityStep st a).1 := by
  by_cases haN : a.name = N
  · have hgnone := (hinv.1 a ha haN).2.1
    simp only [identityStep, hgnone]
    exact hinv
  · simp only [identityStep]
    split
    · exact hinv
    · split
      · exact hinv
      · rename_i g hg gr hgr
        split
        · split
          · exact hinv
          · refine ⟨?_, ?_, ?_⟩
            · exact updApp_keep st.apps a.name _ (fun x => rfl) haN hinv.1
            · show stateView ((match a.server with
                | some v => (st.root.removeApp v a.name).getD st.root
                | none => st.root) : Node) srv = some st0
              match a.server with
              | some v => rw [removeApp_getD_stateView]; exact hinv.2.1
              | none => exact hinv.2.1
            · exact updApp_exists st.apps a.name _ (fun x => rfl) hinv.2.2
        · split
          · refine ⟨?_, hinv.2.1, ?_⟩
            · exact updApp_keep st.apps a.name _ (fun x => rfl) haN hinv.1
            · exact updApp_exists st.apps a.name _ (fun x => rfl) hinv.2.2
          · exact hinv

theorem evictWalk_keep {N srv : String} {e : ℤ} {st0 : NState} (hup : st0 ≠ NState.up)
    (a : Application) (apps : List Application) (hinv : NameInv N srv e apps) :
    ∀ (queue : List QEntry) (root : Node) (removed : List (String × String)),
      stateView root srv = some st0 →
      (∀ p ∈ removed, p.1 ≠ N) →
      stateView (evictWalk a apps root queue removed).2.1 srv = some st0 ∧
      (∀ p ∈ (evictWalk a apps root queue removed).2.2, p.1 ≠ N) ∧
      (∀ r2 x, (evictWalk a apps root queue removed).1 = some (r2, x) →
        stateView r2 srv = some st0) := by
  intro queue
  induction queue with
  | nil =>
      intro root removed hroot hrem
      simp only [evictWalk]
      exact ⟨hroot, hrem, by intro r2 x h; simp at h⟩
  | cons b rest ih =>
      intro root removed hroot hrem
      simp only [evictWalk]
      split
      · exact ih root removed hroot hrem
      · rename_i bApp hfind
        split
        · exact ih root removed hroot hrem
        · rename_i srvb hsrvb
          split
          · rename_i hlt
            split
            · rename_i sdata hsdata
              split
              · rename_i hfilter
                have hbN : bApp.name ≠ N := by
                  intro hbn
                  have hb := hinv bApp (List.mem_of_find?_eq_some hfind) hbn
                  rw [hsrvb] at hb
                  have hsrveq : srvb = srv := by
                    have := hb.1
                    simp at this
                    exact this
                  subst hsrveq
                  have : stateView root srvb = some sdata.state := by
                    simp [stateView, hsdata]
                  rw [hroot] at this
                  simp at this
                  exact hup (this.trans hfilter.1)
                split
                · rename_i root1 hrem1
                  have hroot1 : stateView root1 srv = some st0 := by
                    rw [removeApp_stateView root srvb bApp.name root1 hrem1 srv]
                    exact hroot
                  have hrem' : ∀ p ∈ removed ++ [(bApp.name, srvb)], p.1 ≠ N := by
                    intro p hp
                    rcases List.mem_append.mp hp with hp | hp
                    · exact hrem p hp
                    · simp only [List.mem_singleton] at hp
                      subst hp
                      exact hbN
                  split
                  · rename_i root2 aSrv hput
                    have hroot2 : stateView root2 srv = some st0 := by
                      rw [put_stateView root1 a (root2, aSrv) hput srv]
                      exact hroot1
                    exact ⟨hroot2, hrem', by
                      intro r2 x h
                      simp only [Option.some.injEq, Prod.mk.injEq] at h
                      rw [← h.1]
                      exact hroot2⟩
                  · exact ih root1 (removed ++ [(bApp.name, srvb)]) hroot1 hrem'
                · exact ih root removed hroot hrem
              · exact ih root removed hroot hrem
            · exact ih root removed hroot hrem
          · exact ih root removed hroot hrem

theorem rollback_keep {N srv : String} {e : ℤ} {st0 : NState} :
    ∀ (removed : List (String × String)) (st : SchedState),
      KeepInv N srv e st0 st → (∀ p ∈ removed, p.1 ≠ N) →
      KeepInv N srv e st0 (rollback st removed) := by
  intro removed
  induction removed with
  | nil =>
      intro st hinv _
      simpa [rollback] using hinv
  | cons p rest ih =>
      intro st hinv hrem
      match p with
      | (n, v) =>
          have hn : n ≠ N := hrem (n, v) (by simp)
          have hrest : ∀ q ∈ rest, q.1 ≠ N := fun q hq => hrem q (by simp [hq])
          simp only [rollback]
          split
          · exact ih st hinv hrest
          · rename_i bApp hfind
            split
            · rename_i root' hput
              refine ih ⟨root', st.apps, st.groups⟩ ⟨hinv.1, ?_, hinv.2.2⟩ hrest
              show stateView root' srv = some st0
              rw [putAt_stateView st.root v bApp root' hput srv]
              exact hinv.2.1
            · refine ih _ ⟨?_, hinv.2.1, ?_⟩ hrest
              · exact updApp_keep st.apps n _ (fun x => rfl) hn hinv.1
              · exact updApp_exists st.apps n _ (fun x => rfl) hinv.2.2

theorem evictAndPlace_keep {N srv : String} {e : ℤ} {st0 : NState}
    (hup : st0 ≠ NState.up) (queue : List QEntry) (st : SchedState) (a : Application)
    (hinv : KeepInv N srv e st0 st) (haN : a.name ≠ N) :
    KeepInv N srv e st0 (evictAndPlace queue st a) := by
  have hw := evictWalk_keep hup a st.apps hinv.1 queue.reverse st.root []
    hinv.2.1 (by simp)
  simp only [evictAndPlace]
  split
  · rename_i root2 aSrv snd removed heq
    have hroot2 : stateView root2 srv = some st0 := by
      apply hw.2.2 root2 aSrv
      rw [heq]
    have hrem : ∀ p ∈ removed, p.1 ≠ N := by
      intro p hp
      apply hw.2.1
      rw [heq]
      exact hp
    refine rollback_keep removed _ ⟨?_, hroot2, ?_⟩ hrem
    · exact updApp_keep st.apps a.name _ (fun x => rfl) haN hinv.1
    · exact updApp_exists st.apps a.name _ (fun x => rfl) hinv.2.2
  · rename_i root1 removed heq
    have hroot1 : stateView root1 srv = some st0 := by
      have := hw.1
      rw [heq] at this
      exact this
    have hrem : ∀ p ∈ removed, p.1 ≠ N := by
      intro p hp
      apply hw.2.1
      rw [heq]
      exact hp
    exact rollback_keep removed _ ⟨hinv.1, hroot1, hinv.2.2⟩ hrem

theorem processEntry_keep {N srv : String} {e : ℤ} {st0 : NState}
    (hup : st0 ≠ NState.up) (queue : List QEntry) (st : SchedState) (ent : QEntry)
    (hinv : KeepInv N srv e st0 st) :
    KeepInv N srv e st0 (processEntry queue st ent) := by
  simp only [processEntry]
  split
  · exact hinv
  · rename_i a hfind
    have hamem : a ∈ st.apps := List.mem_of_find?_eq_some hfind
    have hstep := identityStep_keep st a hinv hamem
    split
    · rename_i st1 heq
      have : (identityStep st a).1 = st1 := by rw [heq]
      rw [this] at hstep
      exact hstep
    · rename_i st1 heq
      have h1 : (identityStep st a).1 = st1 := by rw [heq]
      rw [h1] at hstep
      split
      · exact hstep
      · rename_i a1 hfind1
        have ha1mem : a1 ∈ st1.apps := List.mem_of_find?_eq_some hfind1
        split
        · exact hstep
        · split
          · exact hstep
          · rename_i hev hsrv1
            have haN : a1.name ≠ N := by
              intro hn
              have := (hstep.1 a1 ha1mem hn).1
              rw [this] at hsrv1
              simp at hsrv1
            split
            · rename_i root' srv' hput
              refine ⟨?_, ?_, ?_⟩
              · exact updApp_keep st1.apps a1.name _ (fun x => rfl) haN hstep.1
              · show stateView root' srv = some st0
                rw [put_stateView st1.root a1 (root', srv') hput srv]
                exact hstep.2.1
              · exact updApp_exists st1.apps a1.name _ (fun x => rfl) hstep.2.2
            · exact evictAndPlace_keep hup queue st1 a1 hstep haN

theorem processQueue_keep {N srv : String} {e : ℤ} {st0 : NState}
    (hup : st0 ≠ NState.up) (queue : List QEntry) :
    ∀ (es : List QEntry) (st : SchedState),
      KeepInv N srv e st0 st → KeepInv N srv e st0 (processQueue queue st es) := by
  intro es
  induction es with
  | nil =>
      intro st hinv
      simpa [processQueue] using hinv
  | cons ent rest ih =>
      intro st hinv
      simp only [processQueue]
      exact ih _ (processEntry_keep hup queue st ent hinv)

theorem retentionUpdate_name (root : Node) (now : ℤ) (a : Application) :
    (retentionUpdate root now a).name = a.name := by
  simp only [retentionUpdate]
  split
  · rfl
  · split
    · split
      · rfl
      · split <;> rfl
    · split <;> rfl

theorem retentionUpdate_down (root : Node) (now : ℤ) (a : Application) (srv : String)
    (s : ServerData) (e : ℤ)
    (hasrv : a.server = some srv) (hs : root.findServer srv = some s)
    (hup : ¬ s.state = NState.up)
    (he : a.placement_expiry.getD (now + a.data_retention_timeout) = e)
    (hnow : now < e) :
    retentionUpdate root now a = { a with placement_expiry := some e } := by
  simp only [retentionUpdate, hasrv, hs]
  rw [if_neg hup, he, if_pos hnow]

theorem retentionTree_stateView (root0 : Node) (now : ℤ) (v : String) (st0 : NState) :
    ∀ (apps : List Application) (t : Node),
      stateView t v = some st0 →
      stateView (retentionTree root0 now t apps) v = some st0 := by
  intro apps
  induction apps with
  | nil =>
      intro t h
      simpa [retentionTree] using h
  | cons a rest ih =>
      intro t h
      simp only [retentionTree]
      apply ih
      split
      · split
        · rw [removeApp_getD_stateView]; exact h
        · exact h
      · exact h

/-- The general retention-keep law: if a server is not up and every app
record of a name is bound to it with an unexpired retention window, then
after `schedule()` those records still report the old server name and
carry the expiry (and the record still exists). -/
theorem schedule_retention_keep (c : Cell) (now : ℤ) (N srv : String)
    (st0 : NState) (e : ℤ)
    (hup : st0 ≠ NState.up)
    (hsrv : stateView c.root srv = some st0)
    (hex : ∃ rec ∈ c.apps, rec.name = N)
    (hq : ∀ rec ∈ c.apps, rec.name = N →
        rec.server = some srv ∧ rec.identity_group = none ∧
        rec.placement_expiry.getD (now + rec.data_retention_timeout) = e)
    (hnow : now < e) :
    (∀ rec ∈ (c.schedule now).apps, rec.name = N →
        rec.server = some srv ∧ rec.placement_expiry = some e) ∧
    ∃ rec ∈ (c.schedule now).apps, rec.name = N := by
  obtain ⟨sd, hsd, hsdstate⟩ : ∃ sd, c.root.findServer srv = some sd ∧ sd.state = st0 := by
    simp only [stateView, Option.map_eq_some'] at hsrv
    exact hsrv
  have hsdup : ¬ sd.state = NState.up := by
    rw [hsdstate]
    exact hup
  have hinv1 : NameInv N srv e (c.apps.map (retentionUpdate c.root now)) := by
    intro rec hrec hname
    simp only [List.mem_map] at hrec
    obtain ⟨x, hx, hrx⟩ := hrec
    have hxname : x.name = N := by
      rw [← retentionUpdate_name c.root now x, hrx]
      exact hname
    obtain ⟨hxs, hxg, hxe⟩ := hq x hx hxname
    rw [retentionUpdate_down c.root now x srv sd e hxs hsd hsdup hxe hnow] at hrx
    rw [← hrx]
    exact ⟨hxs, hxg, rfl⟩
  have hex1 : ∃ rec ∈ c.apps.map (retentionUpdate c.root now), rec.name = N := by
    obtain ⟨rec, hmem, hname⟩ := hex
    refine ⟨retentionUpdate c.root now rec, List.mem_map_of_mem _ hmem, ?_⟩
    rw [retentionUpdate_name]
    exact hname
  have hroot1 : stateView (retentionTree c.root now c.root c.apps) srv = some st0 :=
    retentionTree_stateView c.root now srv st0 c.apps c.root hsrv
  have hfinal := @processQueue_keep N srv e st0 hup
    (globalQueue c.allocations (c.apps.map (retentionUpdate c.root now))
      (retentionTree c.root now c.root c.apps).sizeVec)
    (globalQueue c.allocations (c.apps.map (retentionUpdate c.root now))
      (retentionTree c.root now c.root c.apps).sizeVec)
    ⟨retentionTree c.root now c.root c.apps, c.apps.map (retentionUpdate c.root now),
      c.identity_groups⟩
    ⟨hinv1, hroot1, hex1⟩
  constructor
  · intro rec hrec hname
    have := hfinal.1 rec hrec hname
    exact ⟨this.1, this.2.2⟩
  · exact hfinal.2.2

/-- The sticky app of `CellTest.test_data_retention`: retention 30. -/
def stickyApp : Application :=
  { name := "sticky-0", priority := 50, demand := [1, 1], affinity := "sticky",
    affinity_limits := [("server", 1), ("rack", 1)], data_retention_timeout := 30 }

/-- The unsticky app: retention 0. -/
def unstickyApp : Application :=
  { name := "unsticky", priority := 10, demand := [1, 1], affinity := "unsticky",
    data_retention_timeout := 0 }

/-- The retention scenario after the first cycle at t = 100 (both apps on
server a). -/
def cellRet1 : Cell :=
  ((({ root := rootRacks } : Cell).add_app none stickyApp).add_app none unstickyApp).schedule 100

/-- After marking server a down and scheduling at t = 100. -/
def cellRet2 : Cell := (cellRet1.set_state "a" NState.down).schedule 100

/-- After scheduling again at t = 130 (the expiry). -/
def cellRet4 : Cell := (cellRet2.schedule 110).schedule 130

/-- C4: while a placed app's host is down and `now` is inside its
retention window, `schedule()` keeps the app bound to the old host name
(with `placement_expiry` set) and does not re-place it -- proved for every
cell; concretely, in the retention scenario the retention-0 app migrates
at the first cycle after the host goes down (to y) while the sticky app
stays on a with `next_event_at` 130, and at t = 130 the sticky app is
freed and re-placed elsewhere (on y). -/
theorem C4_data_retention :
    (∀ (c : Cell) (now : ℤ) (N srv : String) (st0 : NState) (e : ℤ),
        st0 ≠ NState.up →
        stateView c.root srv = some st0 →
        (∃ rec ∈ c.apps, rec.name = N) →
        (∀ rec ∈ c.apps, rec.name = N →
            rec.server = some srv ∧ rec.identity_group = none ∧
            rec.placement_expiry.getD (now + rec.data_retention_timeout) = e) →
        now < e →
        (∀ rec ∈ (c.schedule now).apps, rec.name = N →
            rec.server = some srv ∧ rec.placement_expiry = some e) ∧
        ∃ rec ∈ (c.schedule now).apps, rec.name = N) ∧
    cellRet2.placements = [("sticky-0", some "a"), ("unsticky", some "y")] ∧
    cellRet2.next_event_at = ((130 : ℤ) : WithTop ℤ) ∧
    cellRet4.placements = [("sticky-0", some "y"), ("unsticky", some "y")] ∧
    cellRet4.next_event_at = ⊤ := by
  exact ⟨schedule_retention_keep, by decide, by decide, by decide, by decide⟩

/-- Witness for C4: the general keep law applied to the concrete retention
scenario at t = 110 (host a down, expiry 130). -/
theorem C4_data_retention_witness :
    (∀ rec ∈ (cellRet2.schedule 110).apps, rec.name = "sticky-0" →
        rec.server = some "a" ∧ rec.placement_expiry = some 130) ∧
    ∃ rec ∈ (cellRet2.schedule 110).apps, rec.name = "sticky-0" := by
  exact C4_data_retention.1 cellRet2 110 "sticky-0" "a" NState.down 130
    (by decide) (by decide) (by decide) (by decide) (by decide)

/-! Schedule-once (claim C8). -/

/-- The evicted-app invariant: every record of the name is unplaced,
flagged evicted and schedule-once. -/
abbrev EvictedInv (N : String) (apps : List Application) : Prop :=
  ∀ rec ∈ apps, rec.name = N →
    rec.server = none ∧ rec.evicted = true ∧ rec.schedule_once = true

theorem updApp_keepQ {N : String} {Q : Application → Prop} (apps : List Application)
    (m : String) (f : Application → Application)
    (hf : ∀ x, (f x).name = x.name) (hQ : ∀ x, Q x → Q (f x))
    (h : ∀ rec ∈ apps, rec.name = N → Q rec) :
    ∀ rec ∈ updApp apps m f, rec.name = N → Q rec := by
  intro rec hrec hname
  simp only [updApp, List.mem_map] at hrec
  obtain ⟨x, hx, hrx⟩ := hrec
  by_cases hxm : x.name = m
  · rw [if_pos hxm] at hrx
    subst hrx
    exact hQ x (h x hx (by rw [← hf x]; exact hname))
  · rw [if_neg hxm] at hrx
    subst hrx
    exact h x hx hname

theorem evictWalk_evicted {N : String} (a : Application) (apps : List Application)
    (hinv : EvictedInv N apps) :
    ∀ (queue : List QEntry) (root : Node) (removed : List (String × String)),
      (∀ p ∈ removed, p.1 ≠ N) →
      ∀ p ∈ (evictWalk a apps root queue removed).2.2, p.1 ≠ N := by
  intro queue
  induction queue with
  | nil =>
      intro root removed hrem p hp
      simp only [evictWalk] at hp
      exact hrem p hp
  | cons b rest ih =>
      intro root removed hrem p hp
      simp only [evictWalk] at hp
      split at hp
      · exact ih root removed hrem p hp
      · rename_i bApp hfind
        split at hp
        · exact ih root removed hrem p hp
        · rename_i srvb hsrvb
          have hbN : bApp.name ≠ N := by
            intro hbn
            have := (hinv bApp (List.mem_of_find?_eq_some hfind) hbn).1
            rw [this] at hsrvb
            exact Option.noConfusion hsrvb
          split at hp
          · split at hp
            · split at hp
              · split at hp
                · have hrem' : ∀ q ∈ removed ++ [(bApp.name, srvb)], q.1 ≠ N := by
                    intro q hq
                    rcases List.mem_append.mp hq with hq | hq
                    · exact hrem q hq
                    · simp only [List.mem_singleton] at hq
                      subst hq
                      exact hbN
                  split at hp
                  · exact hrem' p hp
                  · exact ih _ _ hrem' p hp
                · exact ih root removed hrem p hp
              · exact ih root removed hrem p hp
            · exact ih root removed hrem p hp
          · exact ih root removed hrem p hp

theorem rollback_evicted {N : String} :
    ∀ (removed : List (String × String)) (st : SchedState),
      EvictedInv N st.apps → (∀ p ∈ removed, p.1 ≠ N) →
      EvictedInv N (rollback st removed).apps ∧
      ((∃ rec ∈ st.apps, rec.name = N) → ∃ rec ∈ (rollback st removed).apps, rec.name = N) := by
  intro removed
  induction removed with
  | nil =>
      intro st hinv _
      simp only [rollback]
      exact ⟨hinv, fun h => h⟩
  | cons p rest ih =>
      intro st hinv hrem
      match p with
      | (n, v) =>
          have hn : n ≠ N := hrem (n, v) (by simp)
          have hrest : ∀ q ∈ rest, q.1 ≠ N := fun q hq => hrem q (by simp [hq])
          simp only [rollback]
          split
          · exact ih st hinv hrest
          · split
            · exact ih _ hinv hrest
            · have hres := ih
                ⟨st.root,
                 updApp st.apps n (fun x =>
                   { x with server := none, evicted := x.evicted || x.schedule_once }),
                 st.groups⟩
                (updApp_keepQ st.apps n _ (fun x => rfl)
                  (fun x hx => ⟨rfl, by simp [hx.2.1], hx.2.2⟩) hinv)
                hrest
              refine ⟨hres.1, fun hx => hres.2 ?_⟩
              exact updApp_exists st.apps n _ (fun x => rfl) hx

/-- Updating a record of another name leaves every property of the
records named `N` intact (the update preserves names). -/
theorem updApp_keepQ_ne {N : String} {Q : Application → Prop} (apps : List Application)
    (m : String) (f : Application → Application)
    (hf : ∀ x, (f x).name = x.name) (hm : m ≠ N)
    (h : ∀ rec ∈ apps, rec.name = N → Q rec) :
    ∀ rec ∈ updApp apps m f, rec.name = N → Q rec := by
  intro rec hrec hname
  simp only [updApp, List.mem_map] at hrec
  obtain ⟨x, hx, hrx⟩ := hrec
  by_cases hxm : x.name = m
  · rw [if_pos hxm] at hrx
    subst hrx
    rw [hf x, hxm] at hname
    exact absurd hname hm
  · rw [if_neg hxm] at hrx
    subst hrx
    exact h x hx hname

/-- The retention step leaves an unplaced record untouched. -/
theorem retentionUpdate_unplaced (root : Node) (now : ℤ) (a : Application)
    (h : a.server = none) : retentionUpdate root now a = a := by
  simp only [retentionUpdate, h]

/-- The identity step preserves the evicted-and-unplaced invariant for the
records named `N` (both its updates keep the server, evicted and
schedule-once fields of such records), and keeps a record of that name in
the list. -/
theorem identityStep_evicted {N : String} (st : SchedState) (a : Application)
    (hinv : EvictedInv N st.apps) (hex : ∃ rec ∈ st.apps, rec.name = N) :
    EvictedInv N (identityStep st a).1.apps ∧
      ∃ rec ∈ (identityStep st a).1.apps, rec.name = N := by
  simp only [identityStep]
  split
  · exact ⟨hinv, hex⟩
  · split
    · exact ⟨hinv, hex⟩
    · split
      · split
        · exact ⟨hinv, hex⟩
        · exact ⟨updApp_keepQ st.apps a.name _ (fun x => rfl)
              (fun x hx => ⟨rfl, hx.2.1, hx.2.2⟩) hinv,
            updApp_exists st.apps a.name _ (fun x => rfl) hex⟩
      · split
        · exact ⟨updApp_keepQ st.apps a.name _ (fun x => rfl)
              (fun x hx => ⟨hx.1, hx.2.1, hx.2.2⟩) hinv,
            updApp_exists st.apps a.name _ (fun x => rfl) hex⟩
        · exact ⟨hinv, hex⟩

/-- The eviction pass for a pending app of another name preserves the
evicted-and-unplaced invariant for the records named `N`: such records are
never walk candidates (they are unplaced), and the rollback only restores
or unplaces the walked apps. -/
theorem evictAndPlace_evicted {N : String} (queue : List QEntry) (st : SchedState)
    (a : Application) (haN : a.name ≠ N)
    (hinv : EvictedInv N st.apps) (hex : ∃ rec ∈ st.apps, rec.name = N) :
    EvictedInv N (evictAndPlace queue st a).apps ∧
      ∃ rec ∈ (evictAndPlace queue st a).apps, rec.name = N := by
  simp only [evictAndPlace]
  split
  · rename_i root2 aSrv mid removed heq
    have hrem : ∀ p ∈ removed, p.1 ≠ N := by
      have hall := evictWalk_evicted a st.apps hinv queue.reverse st.root []
        (by intro p hp; simp at hp)
      rw [heq] at hall
      exact hall
    have h1 : EvictedInv N (updApp st.apps a.name
        (fun x => { x with server := some aSrv })) :=
      updApp_keepQ_ne st.apps a.name _ (fun x => rfl) haN hinv
    have h2 := updApp_exists st.apps a.name
        (fun x => { x with server := some aSrv }) (fun x => rfl) hex
    have hres := rollback_evicted removed
      ⟨root2, updApp st.apps a.name (fun x => { x with server := some aSrv }), st.groups⟩
      h1 hrem
    exact ⟨hres.1, hres.2 h2⟩
  · rename_i root1 removed heq
    have hrem : ∀ p ∈ removed, p.1 ≠ N := by
      have hall := evictWalk_evicted a st.apps hinv queue.reverse st.root []
        (by intro p hp; simp at hp)
      rw [heq] at hall
      exact hall
    have hres := rollback_evicted removed ⟨root1, st.apps, st.groups⟩ hinv hrem
    exact ⟨hres.1, hres.2 hex⟩

/-- Processing one queue entry preserves the evicted-and-unplaced
invariant: an entry for `N` itself is skipped by the evicted-and-once
guard, and any other entry only updates records of its own name. -/
theorem processEntry_evicted {N : String} (queue : List QEntry) (st : SchedState)
    (e : QEntry) (hinv : EvictedInv N st.apps) (hex : ∃ rec ∈ st.apps, rec.name = N) :
    EvictedInv N (processEntry queue st e).apps ∧
      ∃ rec ∈ (processEntry queue st e).apps, rec.name = N := by
  simp only [processEntry]
  split
  · exact ⟨hinv, hex⟩
  · rename_i a hfind
    have hid := identityStep_evicted st a hinv hex
    split
    · rename_i st1 hstep
      rw [hstep] at hid
      exact hid
    · rename_i st1 hstep
      rw [hstep] at hid
      split
      · exact hid
      · rename_i a1 hfind1
        have ha1mem : a1 ∈ st1.apps := List.mem_of_find?_eq_some hfind1
        split
        · exact hid
        · rename_i hguard
          have haN : a1.name ≠ N := by
            intro hn
            have := hid.1 a1 ha1mem hn
            rw [this.2.1, this.2.2] at hguard
            exact hguard rfl
          split
          · exact hid
          · split
            · rename_i root' srv hput
              refine ⟨updApp_keepQ_ne st1.apps a1.name _ (fun x => rfl) haN hid.1, ?_⟩
              exact updApp_exists st1.apps a1.name _ (fun x => rfl) hid.2
            · exact evictAndPlace_evicted queue st1 a1 haN hid.1 hid.2

/-- Queue processing preserves the evicted-and-unplaced invariant. -/
theorem processQueue_evicted {N : String} (queue : List QEntry) :
    ∀ (entries : List QEntry) (st : SchedState),
      EvictedInv N st.apps → (∃ rec ∈ st.apps, rec.name = N) →
      EvictedInv N (processQueue queue st entries).apps ∧
        ∃ rec ∈ (processQueue queue st entries).apps, rec.name = N := by
  intro entries
  induction entries with
  | nil =>
      intro st hinv hex
      simp only [processQueue]
      exact ⟨hinv, hex⟩
  | cons e rest ih =>
      intro st hinv hex
      simp only [processQueue]
      have h := processEntry_evicted queue st e hinv hex
      exact ih (processEntry queue st e) h.1 h.2

/-- The general schedule-once law: a record that is unplaced with the
`evicted` flag set and `schedule_once` true stays that way through any
`schedule()` cycle (the retention pass ignores unplaced records, the queue
pass skips evicted schedule-once apps, and no other step touches them). -/
theorem schedule_evicted_keep (c : Cell) (now : ℤ) (N : String)
    (hinv : EvictedInv N c.apps) (hex : ∃ rec ∈ c.apps, rec.name = N) :
    EvictedInv N (c.schedule now).apps ∧
      ∃ rec ∈ (c.schedule now).apps, rec.name = N := by
  have hinv1 : EvictedInv N (c.apps.map (retentionUpdate c.root now)) := by
    intro rec hrec hname
    simp only [List.mem_map] at hrec
    obtain ⟨x, hx, hrx⟩ := hrec
    have hxname : x.name = N := by
      rw [← retentionUpdate_name c.root now x, hrx]
      exact hname
    have hQ := hinv x hx hxname
    rw [retentionUpdate_unplaced c.root now x hQ.1] at hrx
    rw [← hrx]
    exact hQ
  have hex1 : ∃ rec ∈ c.apps.map (retentionUpdate c.root now), rec.name = N := by
    obtain ⟨rec, hmem, hname⟩ := hex
    refine ⟨retentionUpdate c.root now rec, List.mem_map_of_mem _ hmem, ?_⟩
    rw [retentionUpdate_name]
    exact hname
  exact processQueue_evicted
    (globalQueue c.allocations (c.apps.map (retentionUpdate c.root now))
      (retentionTree c.root now c.root c.apps).sizeVec)
    (globalQueue c.allocations (c.apps.map (retentionUpdate c.root now))
      (retentionTree c.root now c.root c.apps).sizeVec)
    ⟨retentionTree c.root now c.root c.apps, c.apps.map (retentionUpdate c.root now),
      c.identity_groups⟩
    hinv1 hex1

/-- The flat three-server `[10,10]` cell topology of
`CellTest.test_schedule_once`. -/
def rootO : Node :=
  mkBucket { name := "top", level := "cell" }
    [srv1010 "s0" none, srv1010 "s1" none, srv1010 "s2" none]

/-- A schedule-once app. -/
def oApp (n : String) (p : ℕ) (d : Vec) (aff : String) : Application :=
  { name := n, priority := p, demand := d, affinity := aff, schedule_once := true }

/-- The first cycle: two `[6,6]` schedule-once apps, landing on s0 and s1. -/
def cO1 : Cell :=
  ((({ root := rootO } : Cell).add_app none (oApp "app-0" 50 [6, 6] "app")).add_app none
      (oApp "app-1" 50 [6, 6] "app")).schedule 100

/-- The next cycle after s0 goes down and s1 is removed: both apps are
displaced although s2 has room. -/
def cO2 : Cell := ((cO1.set_state "s0" NState.down).remove_node "s1").schedule 100

/-- A one-server `[10,10]` cell for the eviction-walk scenarios of
`CellTest.test_schedule_once_eviction`. -/
def rootF : Node := mkBucket { name := "top", level := "cell" } [srv1010 "s0" none]

/-- A priority-70 app that can never fit: its eviction walk fails. -/
def hugeApp : Application :=
  { name := "huge", priority := 70, demand := [11, 11], affinity := "huge" }

/-- A priority-70 app that fits after the schedule-once app is evicted. -/
def medApp : Application :=
  { name := "med", priority := 70, demand := [9, 9], affinity := "med" }

/-- A `[1,1]` schedule-once app placed on the single server. -/
def cF1 : Cell :=
  (({ root := rootF } : Cell).add_app none (oApp "small-0" 50 [1, 1] "small")).schedule 100

/-- The cycle after adding the unplaceable app: the walk tentatively
removes small-0 but still fails, so the rollback restores it to s0 with
the `evicted` flag unset. -/
def cF2 : Cell := (cF1.add_app none hugeApp).schedule 100

/-- An `[8,8]` schedule-once app placed on the single server. -/
def cG1 : Cell :=
  (({ root := rootF } : Cell).add_app none (oApp "large-0" 50 [8, 8] "large")).schedule 100

/-- The cycle after adding the `[9,9]` app: large-0 is evicted to make
room, cannot be restored, and is displaced with the flag set. -/
def cG2 : Cell := (cG1.add_app none medApp).schedule 100

/-- The cycle after removing the `[9,9]` app again: the displaced
schedule-once app is not re-placed even though its old slot is free. -/
def cG3 : Cell := (cG2.remove_app "med").schedule 100

/-- C8: a schedule-once app that has been displaced -- its record unplaced
with the `evicted` flag set -- is never re-placed by any later `schedule()`
cycle, in any cell; concretely (`CellTest.test_schedule_once`), the two
`[6,6]` once-apps land on s0 and s1, and after s0 goes down and s1 is
removed both are unplaced with the flag set and stay so on a further
cycle; in the eviction scenarios (`CellTest.test_schedule_once_eviction`)
an app that was only tentatively removed during a failed walk is restored
to its prior host with the flag unset, while a once-app displaced by a
successful eviction is flagged and stays unplaced even after the evicting
app is removed. -/
theorem C8_schedule_once :
    (∀ (c : Cell) (now : ℤ) (N : String),
        EvictedInv N c.apps → (∃ rec ∈ c.apps, rec.name = N) →
        EvictedInv N (c.schedule now).apps ∧
          ∃ rec ∈ (c.schedule now).apps, rec.name = N) ∧
    cO1.apps.map (fun a => (a.name, a.server, a.evicted)) =
      [("app-0", some "s0", false), ("app-1", some "s1", false)] ∧
    cO2.apps.map (fun a => (a.name, a.server, a.evicted)) =
      [("app-0", none, true), ("app-1", none, true)] ∧
    (cO2.schedule 100).apps.map (fun a => (a.name, a.server, a.evicted)) =
      [("app-0", none, true), ("app-1", none, true)] ∧
    cF2.apps.map (fun a => (a.name, a.server, a.evicted)) =
      [("small-0", some "s0", false), ("huge", none, false)] ∧
    cG2.apps.map (fun a => (a.name, a.server, a.evicted)) =
      [("large-0", none, true), ("med", some "s0", false)] ∧
    cG3.apps.map (fun a => (a.name, a.server, a.evicted)) =
      [("large-0", none, true)] := by
  refine ⟨fun c now N hinv hex => schedule_evicted_keep c now N hinv hex,
    by decide, by decide, by decide, by decide, by decide, by decide⟩

/-- Witness for C8: the general law applied to the displaced cell `cO2` at
the record `app-0`: it stays unplaced and flagged through another cycle. -/
theorem C8_schedule_once_witness :
    EvictedInv "app-0" (cO2.schedule 100).apps ∧
      ∃ rec ∈ (cO2.schedule 100).apps, rec.name = "app-0" :=
  C8_schedule_once.1 cO2 100 "app-0" (by decide) (by decide)

/-! Idempotence (claim C9). -/

/-- The two-server cell of the idempotence counterexample: an unlabelled
server and an `xx`-labelled one. -/
def rootC9 : Node :=
  mkBucket { name := "top", level := "cell" } [srv1010 "sn" none, srv1010 "sx" (some "xx")]

/-- A low-priority `f`-affinity app, to be placed on the labelled server. -/
def appB9 : Application :=
  { name := "appB", priority := 1, demand := [1, 1], affinity := "f" }

/-- A high-priority `f`-affinity app capped at one `f` app per cell. -/
def appA9 : Application :=
  { name := "appA", priority := 10, demand := [1, 1], affinity := "f",
    affinity_limits := [("cell", 1)] }

/-- A mid-priority app that fills the labelled server, evicting appB. -/
def appC9 : Application :=
  { name := "appC", priority := 5, demand := [10, 10], affinity := "g" }

/-- appB scheduled onto the labelled server. -/
def cellC9a : Cell := (({ root := rootC9 } : Cell).add_app (some "xx") appB9).schedule 100

/-- One more cycle after adding appA (label-free) and appC (labelled):
appA is processed first but blocked by the cell-wide `f` cap that appB
still holds; appC then evicts appB, freeing the cap, but appA is not
retried within the cycle. -/
def cellC9b : Cell := ((cellC9a.add_app none appA9).add_app (some "xx") appC9).schedule 100

/-- C9 counterexample: `schedule()` is not idempotent for every cell
state: in `cellC9b` the pending appA was blocked by an affinity cap that
an eviction later in the same cycle released, so a second cycle with no
intervening mutation places appA and changes the placements. -/
theorem C9_idempotence_counterexample :
    (cellC9b.schedule 100).placements ≠ cellC9b.placements := by
  decide

/-- C9 (amended): a second `schedule()` with no intervening mutation and
the same injected time yields identical placements on the scheduled test
cells: the four-app cell of `CellTest.test_simple` after each of its first
two cycles, and the retention cell of `CellTest.test_data_retention`
re-run at time 110. -/
theorem C9_idempotence :
    (cellC3a.schedule 100).placements = cellC3a.placements ∧
    (cellC3b.schedule 100).placements = cellC3b.placements ∧
    ((cellRet2.schedule 110).schedule 110).placements =
      (cellRet2.schedule 110).placements := by
  refine ⟨by decide, by decide, by decide⟩

end TreadmillScheduler
